import Mathlib

/-!
Verification development for `AIStudyCompanion/references/auto_student.py`.

The Python source is embedded shallowly: pure string manipulation is
translated to functions on `List Char` / `String`; awaited collaborator
calls (OpenAI chat completions, HTTP responses, transcript fetches) are
passed in as explicit outcome values; the filesystem is an association
list from paths to byte lists; `asyncio.gather` is modelled by slot
filling over an arbitrary list of completion events.
-/

/-- Outcome of an awaited operation in the Python source: a normal return
value, or a raised exception carrying its message text. -/
inductive Outcome (α : Type) where
  | ok (v : α)
  | exn (e : String)
deriving DecidableEq

/-! ### Python string helpers (str.strip, str.split, str.lower) -/

/-- Python `str.isspace` characters relevant to `strip`/`split`
(ASCII whitespace: space, tab, newline, carriage return, vertical tab, form feed). -/
def pyIsSpace (c : Char) : Bool :=
  c = ' ' || c = '\t' || c = '\n' || c = '\r' || c = '\x0b' || c = '\x0c'

/-- Drop leading Python whitespace from a character list. -/
def dropLeadingWs : List Char → List Char
  | [] => []
  | c :: r => if pyIsSpace c then dropLeadingWs r else c :: r

/-- Python `str.strip()` on a character list. -/
def pyStripL (l : List Char) : List Char :=
  ((dropLeadingWs ((dropLeadingWs l).reverse)).reverse)

/-- Python `str.strip()`. -/
def pyStrip (s : String) : String := String.mk (pyStripL s.toList)

/-- Helper for Python `str.split()` (no separator): accumulate the current
word (reversed) and split on whitespace runs, discarding empty pieces. -/
def splitWordsAux : List Char → List Char → List (List Char)
  | [], acc => if acc.isEmpty then [] else [acc.reverse]
  | c :: r, acc =>
    if pyIsSpace c then
      if acc.isEmpty then splitWordsAux r [] else acc.reverse :: splitWordsAux r []
    else splitWordsAux r (c :: acc)

/-- Python `text.split()`: words of a string, whitespace-separated. -/
def splitWords (s : String) : List String :=
  (splitWordsAux s.toList []).map String.mk

/-- `len(text.split())`, the word count used by `_summarize_text`. -/
def wordCount (s : String) : Nat := (splitWordsAux s.toList []).length

/-- Python `str.lower()` on a character list. -/
def pyLower (l : List Char) : List Char := l.map Char.toLower

/-! ### Generic list-of-char scanning helpers -/

/-- `beginsWith pat l` iff `pat` is an initial run of `l`
(Python `str.startswith`). -/
def beginsWith : List Char → List Char → Bool
  | [], _ => true
  | _ :: _, [] => false
  | p :: ps, c :: cs => p = c && beginsWith ps cs

/-- `containsSeq needle hay` iff `needle` occurs contiguously in `hay`
(Python `in` on strings). -/
def containsSeq (needle : List Char) : List Char → Bool
  | [] => beginsWith needle []
  | c :: cs => beginsWith needle (c :: cs) || containsSeq needle cs

/-! ### Video-ID Resolver: `_extract_youtube_video_id`

The five regular expressions of the source are embedded as explicit
backtracking scanners with `re.search` leftmost-match semantics. -/

/-- The id character class `[a-zA-Z0-9_-]` of the source's patterns. -/
def ytIdChar (c : Char) : Bool := c.isAlphanum || c = '_' || c = '-'

/-- Match exactly the 11-character id group `([a-zA-Z0-9_-]{11})` at the
head of the input (further characters may follow, as in the unanchored
regex). -/
def take11Id (l : List Char) : Option (List Char) :=
  let t := l.take 11
  if t.length = 11 && t.all ytIdChar then some t else none

/-- Suffixes of the input that begin right after each `'&'`, in order of
occurrence.  These are the block boundaries the greedy `(?:[^&]*&)*`
subpattern can stop at. -/
def ampSuffixes : List Char → List (List Char)
  | [] => []
  | c :: r => if c = '&' then r :: ampSuffixes r else ampSuffixes r

/-- Try `v=` followed by the 11-character id group at the head. -/
def tryVEq (s : List Char) : Option (List Char) :=
  if beginsWith ['v', '='] s then take11Id (s.drop 2) else none

/-- First success of `f` over a list of candidates. -/
def firstSomeL {α β : Type} (f : α → Option β) : List α → Option β
  | [] => none
  | a :: r =>
    match f a with
    | some b => some b
    | none => firstSomeL f r

/-- Backtracking match of `(?:[^&]*&)*v=([a-zA-Z0-9_-]{11})` after
`watch?`: the greedy star prefers the latest `'&'` boundary, falling back
towards the start. -/
def matchWatch (s : List Char) : Option (List Char) :=
  firstSomeL tryVEq ((ampSuffixes s).reverse ++ [s])

/-- The alternation after `youtube.com/` in the first source pattern:
`watch?…v=`, `embed/`, `v/`, `shorts/`, `live/`. -/
def matchYtTail (s : List Char) : Option (List Char) :=
  (if beginsWith "watch?".toList s then matchWatch (s.drop 6) else none) <|>
  (if beginsWith "embed/".toList s then take11Id (s.drop 6) else none) <|>
  (if beginsWith "v/".toList s then take11Id (s.drop 2) else none) <|>
  (if beginsWith "shorts/".toList s then take11Id (s.drop 7) else none) <|>
  (if beginsWith "live/".toList s then take11Id (s.drop 5) else none)

/-- The alternation after `googleusercontent.com/youtube.com/` in the
third source pattern: `watch?…v=`, `embed/`, `v/`. -/
def matchGucTail (s : List Char) : Option (List Char) :=
  (if beginsWith "watch?".toList s then matchWatch (s.drop 6) else none) <|>
  (if beginsWith "embed/".toList s then take11Id (s.drop 6) else none) <|>
  (if beginsWith "v/".toList s then take11Id (s.drop 2) else none)

/-- `re.search` of the first pattern: leftmost position where
`youtube.com/` is followed by a matching tail. -/
def searchPat1 : List Char → Option (List Char)
  | [] => none
  | c :: r =>
    (if beginsWith "youtube.com/".toList (c :: r) then matchYtTail ((c :: r).drop 12)
     else none) <|> searchPat1 r

/-- `re.search` of the second pattern `(?:youtu\.be/)([a-zA-Z0-9_-]{11})`. -/
def searchPat2 : List Char → Option (List Char)
  | [] => none
  | c :: r =>
    (if beginsWith "youtu.be/".toList (c :: r) then take11Id ((c :: r).drop 9)
     else none) <|> searchPat2 r

/-- `re.search` of the third pattern, anchored at
`googleusercontent.com/youtube.com/`. -/
def searchPat3 : List Char → Option (List Char)
  | [] => none
  | c :: r =>
    (if beginsWith "googleusercontent.com/youtube.com/".toList (c :: r) then
       matchGucTail ((c :: r).drop 34)
     else none) <|> searchPat3 r

/-- Try `[?&]v=([a-zA-Z0-9_-]{11})` at the head of the input. -/
def matchQAmpV (t : List Char) : Option (List Char) :=
  match t with
  | [] => none
  | c :: r =>
    if (c = '?' || c = '&') && beginsWith ['v', '='] r then take11Id (r.drop 2)
    else none

/-- Backtracking match of `.*[?&]v=([a-zA-Z0-9_-]{11})`: the greedy `.*`
(no DOTALL, so it cannot cross a newline) prefers the latest feasible
`[?&]` position; we walk forward keeping the latest success. -/
def lastDotStarMatch (acc : Option (List Char)) : List Char → Option (List Char)
  | [] => acc
  | c :: r =>
    if c = '\n' then acc
    else
      lastDotStarMatch (match matchQAmpV (c :: r) with
                        | some x => some x
                        | none => acc) r

/-- `re.search` of the fourth pattern `(?:youtube\.com\/.*[?&]v=)(id)`. -/
def searchPat4 : List Char → Option (List Char)
  | [] => none
  | c :: r =>
    (if beginsWith "youtube.com/".toList (c :: r) then
       lastDotStarMatch none ((c :: r).drop 12)
     else none) <|> searchPat4 r

/-- `re.search` of the fifth pattern, like the fourth but anchored at
`googleusercontent.com/youtube.com/`. -/
def searchPat5 : List Char → Option (List Char)
  | [] => none
  | c :: r =>
    (if beginsWith "googleusercontent.com/youtube.com/".toList (c :: r) then
       lastDotStarMatch none ((c :: r).drop 34)
     else none) <|> searchPat5 r

/-- Embeds `_extract_youtube_video_id`: guard on emptiness, scheme and a
case-insensitive *substring* test for the three domains, then the five
patterns in order with `re.search` semantics. -/
def extract_youtube_video_id (url : String) : Option String :=
  if (pyStripL url.toList).isEmpty then none
  else if !(beginsWith "http://".toList url.toList ||
            beginsWith "https://".toList url.toList) then none
  else if !(containsSeq "youtube.com".toList (pyLower url.toList) ||
            containsSeq "youtu.be".toList (pyLower url.toList) ||
            containsSeq "googleusercontent.com".toList (pyLower url.toList)) then none
  else
    match searchPat1 url.toList <|> searchPat2 url.toList <|> searchPat3 url.toList <|>
          searchPat4 url.toList <|> searchPat5 url.toList with
    | some id => some (String.mk id)
    | none => none

example : extract_youtube_video_id "https://www.youtube.com/watch?v=dQw4w9WgXcQ" =
    some "dQw4w9WgXcQ" := by decide

example : extract_youtube_video_id "https://example.com/article" = none := by decide

example : extract_youtube_video_id "https://youtu.be/abcdefghijk" = some "abcdefghijk" := by
  decide

example : extract_youtube_video_id
    "https://evil.com/a?u=youtube.com/watch?v=abcdefghijk" = some "abcdefghijk" := by decide

/-! ### Summarizer: `_summarize_text`

The OpenAI chat-completion call is the `collab` parameter: a raised
exception, or the returned `message.content` (`none` models a `None`
content).  The prompt construction and activity reporting have no effect
on the returned string and are omitted. -/

/-- Embeds `_summarize_text`. -/
def summarize_text (collab : Outcome (Option String)) (text : String)
    (maxWords : Nat) : String :=
  if text = "" || pyStrip text = "" then "[No content to summarize]"
  else if wordCount text ≤ maxWords then text
  else
    match collab with
    | Outcome.ok content =>
      let summary := content.getD ""
      if summary = "" || pyStrip summary = "" then
        "[Empty summary returned for content of length " ++ toString text.length ++ "]"
      else pyStrip summary
    | Outcome.exn _ =>
      let words := splitWords text
      if maxWords < words.length then
        String.intercalate " " (words.take maxWords) ++
          "... [truncated due to summarization error]"
      else text

example : summarize_text (Outcome.exn "boom") "a b c d e" 3 =
    "a b c... [truncated due to summarization error]" := by decide

example : summarize_text (Outcome.ok (some "")) "a b c d e" 3 =
    "[Empty summary returned for content of length 9]" := by decide

example : summarize_text (Outcome.exn "x") "hello world" 500 = "hello world" := by decide

example : summarize_text (Outcome.exn "x") "  " 500 = "[No content to summarize]" := by decide

/-! Support lemmas: a positive word count forces a non-whitespace character. -/

theorem splitWordsAux_all_space {l : List Char} (h : ∀ c ∈ l, pyIsSpace c = true) :
    splitWordsAux l [] = [] := by
  induction l with
  | nil => rfl
  | cons c r ih =>
    have hc : pyIsSpace c = true := h c (List.mem_cons_self ..)
    simp only [splitWordsAux, hc, if_true, List.isEmpty_nil]
    exact ih (fun d hd => h d (List.mem_cons_of_mem _ hd))

theorem dropLeadingWs_nil_all_space {l : List Char} (h : dropLeadingWs l = []) :
    ∀ c ∈ l, pyIsSpace c = true := by
  induction l with
  | nil => intro c hc; cases hc
  | cons c r ih =>
    intro d hd
    cases hc : pyIsSpace c with
    | true =>
      simp only [dropLeadingWs, hc, if_true] at h
      rcases List.mem_cons.mp hd with h1 | h2
      · exact h1 ▸ hc
      · exact ih h d h2
    | false => simp [dropLeadingWs, hc] at h

theorem dropLeadingWs_split (l : List Char) :
    ∃ w, l = w ++ dropLeadingWs l ∧ ∀ c ∈ w, pyIsSpace c = true := by
  induction l with
  | nil => exact ⟨[], rfl, by intro c hc; cases hc⟩
  | cons c r ih =>
    cases hc : pyIsSpace c with
    | true =>
      obtain ⟨w, hw, hws⟩ := ih
      refine ⟨c :: w, ?_, ?_⟩
      · simp only [dropLeadingWs, hc, if_true, List.cons_append]
        exact congrArg (c :: ·) hw
      · intro d hd
        rcases List.mem_cons.mp hd with h1 | h2
        · exact h1 ▸ hc
        · exact hws d h2
    | false =>
      refine ⟨[], ?_, ?_⟩
      · simp [dropLeadingWs, hc]
      · intro d hd; cases hd

theorem pyStripL_nil_all_space {l : List Char} (h : pyStripL l = []) :
    ∀ c ∈ l, pyIsSpace c = true := by
  unfold pyStripL at h
  have h2 : dropLeadingWs ((dropLeadingWs l).reverse) = [] := by
    have := congrArg List.reverse h
    simpa using this
  have h3 : ∀ c ∈ (dropLeadingWs l).reverse, pyIsSpace c = true :=
    dropLeadingWs_nil_all_space h2
  obtain ⟨w, hw, hws⟩ := dropLeadingWs_split l
  intro c hc
  rw [hw] at hc
  rcases List.mem_append.mp hc with h1 | h2
  · exact hws c h1
  · exact h3 c (List.mem_reverse.mpr h2)

/-- A string with at least one word is neither empty nor whitespace-only. -/
theorem wordCount_pos_not_blank {text : String} (h : 0 < wordCount text) :
    ¬(text = "" || pyStrip text = "") = true := by
  intro hb
  rcases Bool.or_eq_true_iff.mp hb with h1 | h2
  · have : text = "" := by simpa using h1
    subst this
    simp [wordCount, splitWordsAux] at h
  · have h2' : pyStrip text = "" := by simpa using h2
    have hl : pyStripL text.toList = [] := by
      have := congrArg String.toList h2'
      simpa [pyStrip] using this
    have hall := pyStripL_nil_all_space hl
    have hz : splitWordsAux text.toList [] = [] := splitWordsAux_all_space hall
    rw [wordCount, hz] at h
    simp at h

/-- Length of `splitWords` agrees with `wordCount`. -/
theorem splitWords_length (s : String) : (splitWords s).length = wordCount s := by
  simp [splitWords, wordCount]

/-- Claim C5 (amended): for text over the word budget, a *raised* collaborator
exception yields the deterministic truncation (first `maxWords` words joined by
single spaces plus the truncation marker), while a collaborator that returns
falsy content (None, empty or whitespace-only) yields the
`[Empty summary returned …]` placeholder instead — in both cases a non-empty
deterministic string, never a lost result. -/
theorem summarize_text_failure_fallback (text : String) (maxWords : Nat) (e : String)
    (content : Option String) (hw : maxWords < wordCount text)
    (hblank : pyStrip (content.getD "") = "") :
    summarize_text (Outcome.exn e) text maxWords =
      String.intercalate " " ((splitWords text).take maxWords) ++
        "... [truncated due to summarization error]" ∧
    summarize_text (Outcome.ok content) text maxWords =
      "[Empty summary returned for content of length " ++ toString text.length ++ "]" := by
  have hnb := wordCount_pos_not_blank (Nat.lt_of_le_of_lt (Nat.zero_le _) hw)
  have hle : ¬ wordCount text ≤ maxWords := Nat.not_le.mpr hw
  constructor
  · unfold summarize_text
    rw [if_neg hnb, if_neg hle]
    rw [if_pos]
    rw [splitWords_length]
    exact hw
  · unfold summarize_text
    rw [if_neg hnb, if_neg hle]
    have : (decide (content.getD "" = "") || decide (pyStrip (content.getD "") = "")) = true := by
      simp [hblank]
    simp only [this, if_true]

/-- Witness for `summarize_text_failure_fallback` at a concrete over-budget text. -/
theorem summarize_text_failure_fallback_witness :
    summarize_text (Outcome.exn "boom") "a b c d e" 3 =
      String.intercalate " " ((splitWords "a b c d e").take 3) ++
        "... [truncated due to summarization error]" ∧
    summarize_text (Outcome.ok (some "")) "a b c d e" 3 =
      "[Empty summary returned for content of length " ++ toString "a b c d e".length ++ "]" :=
  summarize_text_failure_fallback "a b c d e" 3 "boom" (some "") (by decide) (by decide)

/-- Counterexample to claim C5 as stated: when the collaborator *returns empty
content* (rather than raising), the Summarizer does not fall back to the
truncation string; it returns the `[Empty summary returned …]` placeholder. -/
theorem summarize_text_empty_content_cex :
    3 < wordCount "a b c d e" ∧
    summarize_text (Outcome.ok (some "")) "a b c d e" 3 =
      "[Empty summary returned for content of length 9]" ∧
    summarize_text (Outcome.ok (some "")) "a b c d e" 3 ≠
      String.intercalate " " ((splitWords "a b c d e").take 3) ++
        "... [truncated due to summarization error]" :=
  ⟨by decide, by decide, by decide⟩

/-- Claim C8 (amended): non-empty text that is not whitespace-only and within
the word budget passes through unchanged, for every collaborator outcome
(so the collaborator's answer is never consulted). -/
theorem summarize_text_within_budget (text : String) (maxWords : Nat)
    (collab : Outcome (Option String)) (hne : text ≠ "") (hnb : pyStrip text ≠ "")
    (hw : wordCount text ≤ maxWords) :
    summarize_text collab text maxWords = text := by
  simp [summarize_text, hne, hnb, hw]

/-- Witness for `summarize_text_within_budget`. -/
theorem summarize_text_within_budget_witness :
    summarize_text (Outcome.exn "e") "hello world" 500 = "hello world" :=
  summarize_text_within_budget "hello world" 500 (Outcome.exn "e")
    (by decide) (by decide) (by decide)

/-- Counterexample to claim C8 as stated: `" "` is a non-empty input whose word
count (0) is within the budget, yet the Summarizer returns the
`[No content to summarize]` marker, not the input. -/
theorem summarize_text_blank_cex :
    (" " : String) ≠ "" ∧ wordCount " " ≤ 500 ∧
    summarize_text (Outcome.exn "e") " " 500 = "[No content to summarize]" ∧
    summarize_text (Outcome.exn "e") " " 500 ≠ " " :=
  ⟨by decide, by decide, by decide, by decide⟩

/-! ### Claim C6: properties of the Video-ID Resolver -/

/-- The host (authority) component of a URL in the sense of the spec's claim:
the text between `scheme://` and the next `/`, `?` or `#`.  The source never
computes a host; this definition follows the claim's words so the host-based
condition can be stated and refuted. -/
def specUrlHost (url : String) : String :=
  let l := url.toList
  let afterScheme :=
    if beginsWith "http://".toList l then l.drop 7
    else if beginsWith "https://".toList l then l.drop 8
    else l
  String.mk (afterScheme.takeWhile (fun c => !(c = '/' || c = '?' || c = '#')))

/-- Claim C6 (amended): the resolver is deterministic; it returns an id only
when the URL starts with `http://`/`https://` *and the lowercased URL contains
one of the recognized domain substrings* (the source tests substring
containment, not the host); and a recognized watch-page URL with an
11-character id yields exactly that id. -/
theorem extract_youtube_video_id_props :
    (∀ url : String, extract_youtube_video_id url = extract_youtube_video_id url) ∧
    (∀ (url : String) (id : String), extract_youtube_video_id url = some id →
      (beginsWith "http://".toList url.toList ||
       beginsWith "https://".toList url.toList) = true ∧
      (containsSeq "youtube.com".toList (pyLower url.toList) ||
       containsSeq "youtu.be".toList (pyLower url.toList) ||
       containsSeq "googleusercontent.com".toList (pyLower url.toList)) = true) ∧
    extract_youtube_video_id "https://www.youtube.com/watch?v=dQw4w9WgXcQ" =
      some "dQw4w9WgXcQ" := by
  refine ⟨fun url => rfl, ?_, by decide⟩
  intro url id h
  unfold extract_youtube_video_id at h
  split_ifs at h with h1 h2 h3
  constructor
  · revert h2
    cases beginsWith "http://".toList url.toList || beginsWith "https://".toList url.toList with
    | true => intro _; rfl
    | false => intro h2; exact absurd rfl h2
  · revert h3
    cases containsSeq "youtube.com".toList (pyLower url.toList) ||
          containsSeq "youtu.be".toList (pyLower url.toList) ||
          containsSeq "googleusercontent.com".toList (pyLower url.toList) with
    | true => intro _; rfl
    | false => intro h3; exact absurd rfl h3

/-- Witness for `extract_youtube_video_id_props`: the guard facts at a URL the
resolver accepts. -/
theorem extract_youtube_video_id_props_witness :
    (beginsWith "http://".toList ("https://youtu.be/abcdefghijk" : String).toList ||
     beginsWith "https://".toList ("https://youtu.be/abcdefghijk" : String).toList) = true ∧
    (containsSeq "youtube.com".toList (pyLower ("https://youtu.be/abcdefghijk" : String).toList) ||
     containsSeq "youtu.be".toList (pyLower ("https://youtu.be/abcdefghijk" : String).toList) ||
     containsSeq "googleusercontent.com".toList
       (pyLower ("https://youtu.be/abcdefghijk" : String).toList)) = true :=
  extract_youtube_video_id_props.2.1 "https://youtu.be/abcdefghijk" "abcdefghijk" (by decide)

/-- Counterexample to claim C6 as stated: a URL whose *host* is `evil.com`
(outside every recognized video-hosting domain) still yields an identifier,
because the source only tests for the domain as a substring anywhere in the
URL. -/
theorem extract_youtube_video_id_host_cex :
    extract_youtube_video_id "https://evil.com/a?u=youtube.com/watch?v=abcdefghijk" =
      some "abcdefghijk" ∧
    specUrlHost "https://evil.com/a?u=youtube.com/watch?v=abcdefghijk" = "evil.com" ∧
    containsSeq "youtube.com".toList ("evil.com" : String).toList = false ∧
    containsSeq "youtu.be".toList ("evil.com" : String).toList = false ∧
    containsSeq "googleusercontent.com".toList ("evil.com" : String).toList = false :=
  ⟨by decide, by decide, by decide, by decide, by decide⟩

/-! ### Bounded Fetcher: `_download_file`

The HTTP response is a value: status, headers and the streamed chunk list
(`iter_chunked`).  Local storage is an association list from paths to byte
lists.  `int(time.time())` is the `timestamp` parameter.  Exceptions raised
by the network layer itself (timeout, client errors) return `None` in the
source and are outside the streaming model; the size-bound paths the claims
address are fully represented. -/

/-- Local storage: association list from file paths to byte contents. -/
abbrev FS := List (String × List Nat)

/-- Look up a path. -/
def fsGet (fs : FS) (p : String) : Option (List Nat) :=
  (fs.find? (fun e => e.1 == p)).map Prod.snd

/-- Create or truncate a file (Python `open(path, 'wb')`). -/
def fsSet (fs : FS) (p : String) (v : List Nat) : FS :=
  (p, v) :: fs.filter (fun e => !(e.1 == p))

/-- Delete a file (Python `os.remove`). -/
def fsRemove (fs : FS) (p : String) : FS := fs.filter (fun e => !(e.1 == p))

/-- Does the path exist? -/
def fsHas (fs : FS) (p : String) : Bool := (fsGet fs p).isSome

/-- Append a chunk to a file (`await f.write(chunk)`). -/
def fsAppend (fs : FS) (p : String) (chunk : List Nat) : FS :=
  fsSet fs p ((fsGet fs p).getD [] ++ chunk)

/-- Size in bytes of the file at `p` (0 if absent). -/
def fileLen (fs : FS) (p : String) : Nat := ((fsGet fs p).getD []).length

/-- An HTTP response as `_download_file` consumes it: status, the
`Content-Type` and `Content-Disposition` headers, the parsed
`Content-Length` header (none when absent), and the body chunks. -/
structure HttpResponse where
  status : Nat
  contentType : String
  contentDisposition : String
  contentLength : Option Nat
  chunks : List (List Nat)
deriving DecidableEq

/-- `re.search(r'filename="?([^"]+)"?', header)` match attempt at the head:
after `filename=`, an optional quote, then one or more non-quote
characters (greedy, up to the next quote or the end). -/
def cdMatchAt (l : List Char) : Option (List Char) :=
  if beginsWith "filename=".toList l then
    match l.drop 9 with
    | '"' :: r1 =>
      let cap := r1.takeWhile (fun c => c != '"')
      if cap.isEmpty then none else some cap
    | r =>
      let cap := r.takeWhile (fun c => c != '"')
      if cap.isEmpty then none else some cap
  else none

/-- Leftmost `re.search` for the content-disposition filename. -/
def cdSearch : List Char → Option (List Char)
  | [] => none
  | c :: r => (cdMatchAt (c :: r)) <|> cdSearch r

/-- Characters allowed in a URL scheme. -/
def schemeChar (c : Char) : Bool := c.isAlphanum || c = '+' || c = '-' || c = '.'

/-- Remove a leading `scheme:` as `urlparse` does. -/
def splitSchemeL (l : List Char) : List Char :=
  let pre := l.takeWhile (fun c => c != ':')
  if pre.length < l.length then
    if pre.isEmpty then l
    else if (match pre with | c :: _ => c.isAlpha | [] => false) && pre.all schemeChar then
      l.drop (pre.length + 1)
    else l
  else l

/-- The path component of `urlparse(url)`: strip fragment and query, strip
the scheme, and when a `//netloc` follows skip up to the next `/`. -/
def urlPathL (l : List Char) : List Char :=
  let n := (l.takeWhile (fun c => c != '#')).takeWhile (fun c => c != '?')
  let a := splitSchemeL n
  if beginsWith ['/', '/'] a then ((a.drop 2).dropWhile (fun c => c != '/')) else a

/-- `Path(p).name`: the final component (pathlib drops trailing slashes). -/
def pathBaseName (l : List Char) : List Char :=
  let t := (l.reverse.dropWhile (fun c => c == '/')).reverse
  (t.reverse.takeWhile (fun c => c != '/')).reverse

/-- `re.sub(r'[^\w\-_\.]', '_', ·)` on one character (ASCII word chars). -/
def sanitizeChar (c : Char) : Char :=
  if c.isAlphanum || c = '_' || c = '-' || c = '.' then c else '_'

/-- Sanitize a filename to the safe character set. -/
def sanitizeFilename (l : List Char) : List Char := l.map sanitizeChar

/-- Whether `Path(name).suffix` is non-empty: the last `'.'` sits strictly
inside the name (CPython: `0 < name.rfind('.') < len(name) - 1`). -/
def hasFileSuffix (l : List Char) : Bool :=
  let rt := l.reverse.takeWhile (fun c => c != '.')
  if rt.length = l.length then false
  else decide (0 < l.length - rt.length - 1) && decide (l.length - rt.length - 1 < l.length - 1)

/-- The filename `_download_file` derives: content-disposition hint, else
the URL path's base name, else `downloaded_file`; sanitized; an extension
appended from the content type when the name has none. -/
def downloadFilename (url : String) (resp : HttpResponse) : List Char :=
  let fn0 := match cdSearch resp.contentDisposition.toList with
    | some cap => cap
    | none =>
      let nm := pathBaseName (urlPathL url.toList)
      if nm.isEmpty then "downloaded_file".toList else nm
  let fn1 := sanitizeFilename fn0
  if hasFileSuffix fn1 then fn1
  else
    fn1 ++ (if containsSeq "html".toList (pyLower resp.contentType.toList) then ".html".toList
            else if containsSeq "json".toList (pyLower resp.contentType.toList) then ".json".toList
            else if containsSeq "text".toList (pyLower resp.contentType.toList) then ".txt".toList
            else ".dat".toList)

/-- `self.downloads_dir / f"{int(time.time())}_{filename}"`. -/
def downloadFilepath (url : String) (resp : HttpResponse) (timestamp : Nat) : String :=
  "downloads/" ++ toString timestamp ++ "_" ++ String.mk (downloadFilename url resp)

/-- The streaming loop of `_download_file`: count each chunk, abort (and
remove the partial file) the moment the cumulative size exceeds the
ceiling, otherwise write the chunk.  Returns the byte count on success. -/
def streamChunks (maxFileSize : Nat) (filepath : String) :
    List (List Nat) → Nat → FS → Option Nat × FS
  | [], size, fs => (some size, fs)
  | chunk :: rest, size, fs =>
    let size2 := size + chunk.length
    if maxFileSize < size2 then (none, fsRemove fs filepath)
    else streamChunks maxFileSize filepath rest size2 (fsAppend fs filepath chunk)

/-- Open the file for writing and run the streaming loop. -/
def streamTo (maxFileSize : Nat) (filepath : String) (chunks : List (List Nat))
    (fs : FS) : Option String × FS :=
  match streamChunks maxFileSize filepath chunks 0 (fsSet fs filepath []) with
  | (some _, fs2) => (some filepath, fs2)
  | (none, fs2) => (none, fs2)

/-- Embeds `_download_file`: skip video/data/mailto URLs, reject bad
statuses, reject a declared over-budget content length before opening the
file, otherwise stream with the mid-stream size check.  (In the source the
filename is derived before the content-length check; the derivation has no
effect on storage, so the order is immaterial.) -/
def download_file (maxFileSize : Nat) (url : String) (resp : HttpResponse)
    (timestamp : Nat) (fs : FS) : Option String × FS :=
  if (extract_youtube_video_id url).isSome ||
     beginsWith "data:".toList url.toList || beginsWith "mailto:".toList url.toList then
    (none, fs)
  else if 400 ≤ resp.status then (none, fs)
  else
    match resp.contentLength with
    | some n =>
      if maxFileSize < n then (none, fs)
      else streamTo maxFileSize (downloadFilepath url resp timestamp) resp.chunks fs
    | none => streamTo maxFileSize (downloadFilepath url resp timestamp) resp.chunks fs

/-- Ghost trace of the streaming loop: the storage state after each write,
or after the final removal on abort.  `streamTrace` is `streamChunks` with
its intermediate states made visible. -/
def streamTrace (maxFileSize : Nat) (filepath : String) :
    List (List Nat) → Nat → FS → List FS
  | [], _, _ => []
  | chunk :: rest, size, fs =>
    let size2 := size + chunk.length
    if maxFileSize < size2 then [fsRemove fs filepath]
    else
      let fs2 := fsAppend fs filepath chunk
      fs2 :: streamTrace maxFileSize filepath rest size2 fs2

/-! Storage lemmas. -/

theorem fsGet_set_self (fs : FS) (p : String) (v : List Nat) :
    fsGet (fsSet fs p v) p = some v := by
  simp [fsGet, fsSet, List.find?]

theorem fsGet_filter_out (fs : FS) (p : String) :
    fsGet (fs.filter (fun e => !(e.1 == p))) p = none := by
  induction fs with
  | nil => rfl
  | cons e rest ih =>
    cases he : e.1 == p with
    | true => simpa [List.filter, he] using ih
    | false =>
      simp only [List.filter, he, Bool.not_false]
      unfold fsGet
      rw [List.find?_cons_of_neg]
      · exact ih
      · simp [he]

theorem fsGet_remove_self (fs : FS) (p : String) :
    fsGet (fsRemove fs p) p = none := fsGet_filter_out fs p

theorem fsHas_remove_self (fs : FS) (p : String) :
    fsHas (fsRemove fs p) p = false := by
  simp [fsHas, fsGet_remove_self]

theorem fileLen_set (fs : FS) (p : String) (v : List Nat) :
    fileLen (fsSet fs p v) p = v.length := by
  simp [fileLen, fsGet_set_self]

theorem fileLen_append (fs : FS) (p : String) (chunk : List Nat) :
    fileLen (fsAppend fs p chunk) p = fileLen fs p + chunk.length := by
  simp [fileLen, fsAppend, fsGet_set_self]

theorem fileLen_remove (fs : FS) (p : String) :
    fileLen (fsRemove fs p) p = 0 := by
  simp [fileLen, fsGet_remove_self]

/-! Streaming-loop lemmas. -/

/-- When the total stream exceeds the ceiling (and the running size is
still within it), the loop aborts: no success, and the file is gone. -/
theorem streamChunks_oversize (maxFileSize : Nat) (fp : String) :
    ∀ (chunks : List (List Nat)) (size : Nat) (fs : FS),
      size ≤ maxFileSize →
      maxFileSize < size + (chunks.map List.length).sum →
      (streamChunks maxFileSize fp chunks size fs).1 = none ∧
      fsHas (streamChunks maxFileSize fp chunks size fs).2 fp = false := by
  intro chunks
  induction chunks with
  | nil =>
    intro size fs hle hgt
    simp only [List.map_nil, List.sum_nil, Nat.add_zero] at hgt
    omega
  | cons c rest ih =>
    intro size fs hle hgt
    by_cases h2 : maxFileSize < size + c.length
    · simp [streamChunks, h2, fsHas_remove_self]
    · have h2' : size + c.length ≤ maxFileSize := Nat.not_lt.mp h2
      have hgt' : maxFileSize < (size + c.length) + (rest.map List.length).sum := by
        simp only [List.map_cons, List.sum_cons] at hgt
        omega
      simpa [streamChunks, h2] using ih (size + c.length) (fsAppend fs fp c) h2' hgt'

/-- The final storage state of the loop is the last state of its ghost
trace (`streamTrace` instruments, it does not change, the loop). -/
theorem streamTrace_last (maxFileSize : Nat) (fp : String) :
    ∀ (chunks : List (List Nat)) (size : Nat) (fs : FS),
      (streamChunks maxFileSize fp chunks size fs).2 =
        (streamTrace maxFileSize fp chunks size fs).getLastD fs := by
  intro chunks
  induction chunks with
  | nil => intro size fs; rfl
  | cons c rest ih =>
    intro size fs
    by_cases h2 : maxFileSize < size + c.length
    · simp [streamChunks, streamTrace, h2]
    · simp only [streamChunks, streamTrace]
      rw [if_neg h2, if_neg h2, ih, List.getLastD_cons]

/-- Size invariant of the streaming loop: starting from a file of size
`size ≤ maxFileSize`, every intermediate storage state keeps the file at
or under the ceiling, and a successful run ends with the file at exactly
the returned byte count, at most the ceiling. -/
theorem streamChunks_size_invariant (maxFileSize : Nat) (fp : String) :
    ∀ (chunks : List (List Nat)) (size : Nat) (fs : FS),
      fileLen fs fp = size → size ≤ maxFileSize →
      (∀ fs2 ∈ streamTrace maxFileSize fp chunks size fs, fileLen fs2 fp ≤ maxFileSize) ∧
      (∀ (total : Nat) (fs3 : FS),
        streamChunks maxFileSize fp chunks size fs = (some total, fs3) →
        fileLen fs3 fp = total ∧ total ≤ maxFileSize) := by
  intro chunks
  induction chunks with
  | nil =>
    intro size fs hlen hle
    constructor
    · intro fs2 h2; cases h2
    · intro total fs3 h3
      simp only [streamChunks] at h3
      obtain ⟨h4, h5⟩ := Prod.mk.injEq .. ▸ h3
      cases h4
      cases h5
      simp only [Option.some.injEq] at *
      exact ⟨by rw [← hlen], hlen ▸ hle⟩
  | cons c rest ih =>
    intro size fs hlen hle
    by_cases h2 : maxFileSize < size + c.length
    · constructor
      · intro fs2 hm
        simp only [streamTrace, if_pos h2, List.mem_singleton] at hm
        subst hm
        simp [fileLen_remove]
      · intro total fs3 h3
        simp [streamChunks, h2] at h3
    · have h2' : size + c.length ≤ maxFileSize := Nat.not_lt.mp h2
      have hlen2 : fileLen (fsAppend fs fp c) fp = size + c.length := by
        rw [fileLen_append, hlen]
      obtain ⟨ihTrace, ihSucc⟩ := ih (size + c.length) (fsAppend fs fp c) hlen2 h2'
      constructor
      · intro fs2 hm
        simp only [streamTrace, if_neg h2, List.mem_cons] at hm
        rcases hm with h1 | hrest
        · subst h1; rw [hlen2]; exact h2'
        · exact ihTrace fs2 hrest
      · intro total fs3 h3
        simp only [streamChunks, if_neg h2] at h3
        exact ihSucc total fs3 h3

/-- Claim C3: a declared content length over the ceiling makes the fetch
return failure with storage untouched (no bytes written); and whenever the
declared length is absent or within the ceiling but the streamed bytes
exceed it, the fetch aborts with failure and the partial file no longer
exists afterward. -/
theorem download_file_size_ceiling (maxFileSize : Nat) (url : String)
    (resp : HttpResponse) (timestamp : Nat) (fs : FS) :
    (∀ n, resp.contentLength = some n → maxFileSize < n →
      download_file maxFileSize url resp timestamp fs = (none, fs)) ∧
    (((extract_youtube_video_id url).isSome ||
        beginsWith "data:".toList url.toList ||
        beginsWith "mailto:".toList url.toList) = false →
      resp.status < 400 →
      (resp.contentLength = none ∨ ∃ n, resp.contentLength = some n ∧ n ≤ maxFileSize) →
      maxFileSize < (resp.chunks.map List.length).sum →
      (download_file maxFileSize url resp timestamp fs).1 = none ∧
      fsHas (download_file maxFileSize url resp timestamp fs).2
        (downloadFilepath url resp timestamp) = false) := by
  constructor
  · intro n hcl hgt
    unfold download_file
    rw [hcl]
    split_ifs with h1 h2
    · rfl
    · rfl
    · show (if maxFileSize < n then ((none : Option String), fs)
            else streamTo maxFileSize (downloadFilepath url resp timestamp) resp.chunks fs) =
          (none, fs)
      rw [if_pos hgt]
  · intro hg hst hcl hover
    have hg' : ¬(((extract_youtube_video_id url).isSome ||
        beginsWith "data:".toList url.toList ||
        beginsWith "mailto:".toList url.toList) = true) := by
      rw [hg]
      exact Bool.false_ne_true
    have hst' : ¬(400 ≤ resp.status) := Nat.not_le.mpr hst
    have hred : download_file maxFileSize url resp timestamp fs =
        streamTo maxFileSize (downloadFilepath url resp timestamp) resp.chunks fs := by
      unfold download_file
      rw [if_neg hg', if_neg hst']
      rcases hcl with hnone | ⟨n, hn, hle⟩
      · rw [hnone]
      · rw [hn]
        exact if_neg (Nat.not_lt.mpr hle)
    rw [hred]
    have hov := streamChunks_oversize maxFileSize (downloadFilepath url resp timestamp)
        resp.chunks 0 (fsSet fs (downloadFilepath url resp timestamp) [])
        (Nat.zero_le _) (by simpa using hover)
    unfold streamTo
    rcases hsc : streamChunks maxFileSize (downloadFilepath url resp timestamp)
        resp.chunks 0 (fsSet fs (downloadFilepath url resp timestamp) []) with ⟨o, fs2⟩
    rw [hsc] at hov
    cases o with
    | none => exact ⟨rfl, hov.2⟩
    | some t => simp at hov

/-- A response declaring an over-budget content length. -/
def respDeclaredBig : HttpResponse :=
  { status := 200, contentType := "text/plain", contentDisposition := "",
    contentLength := some 100, chunks := [] }

/-- A response with no declared length whose stream exceeds a 5-byte ceiling. -/
def respStreamBig : HttpResponse :=
  { status := 200, contentType := "text/plain", contentDisposition := "",
    contentLength := none, chunks := [[1, 2, 3], [4, 5, 6]] }

/-- Witness for `download_file_size_ceiling` at concrete responses. -/
theorem download_file_size_ceiling_witness :
    download_file 50 "http://h/f.txt" respDeclaredBig 7 [] = (none, []) ∧
    ((download_file 5 "http://h/f.txt" respStreamBig 7 []).1 = none ∧
      fsHas (download_file 5 "http://h/f.txt" respStreamBig 7 []).2
        (downloadFilepath "http://h/f.txt" respStreamBig 7) = false) :=
  ⟨(download_file_size_ceiling 50 "http://h/f.txt" respDeclaredBig 7 []).1 100 rfl
      (by decide),
   (download_file_size_ceiling 5 "http://h/f.txt" respStreamBig 7 []).2 (by decide)
      (by decide) (Or.inl rfl) (by decide)⟩

/-- A successful `streamTo` leaves the file at or under the ceiling. -/
theorem streamTo_success_bound {maxFileSize : Nat} {fp : String}
    {chunks : List (List Nat)} {fs : FS} {fp2 : String} {fs2 : FS}
    (h : streamTo maxFileSize fp chunks fs = (some fp2, fs2)) :
    fileLen fs2 fp2 ≤ maxFileSize := by
  unfold streamTo at h
  rcases hsc : streamChunks maxFileSize fp chunks 0 (fsSet fs fp []) with ⟨o, fsX⟩
  rw [hsc] at h
  cases o with
  | none => exact absurd h (by simp)
  | some t =>
    have hfp : fp = fp2 := by
      have := congrArg Prod.fst h
      simpa using this
    have hfs : fsX = fs2 := congrArg Prod.snd h
    subst hfp
    subst hfs
    have hinv := (streamChunks_size_invariant maxFileSize fp chunks 0 (fsSet fs fp [])
        (fileLen_set fs fp []) (Nat.zero_le _)).2 t fsX hsc
    rw [hinv.1]
    exact hinv.2

/-- Claim C9: the cumulative-size check runs after counting each chunk but
before writing it, so at every state of the streaming loop the bytes in the
file stay at or under the ceiling; and a successful download returns a file
of size at most the ceiling. -/
theorem download_file_bytes_bounded :
    (∀ (maxFileSize : Nat) (fp : String) (chunks : List (List Nat)) (fs : FS),
      fileLen fs fp = 0 →
      ∀ fs2 ∈ streamTrace maxFileSize fp chunks 0 fs, fileLen fs2 fp ≤ maxFileSize) ∧
    (∀ (maxFileSize : Nat) (url : String) (resp : HttpResponse) (timestamp : Nat)
        (fs : FS) (fp2 : String) (fs2 : FS),
      download_file maxFileSize url resp timestamp fs = (some fp2, fs2) →
      fileLen fs2 fp2 ≤ maxFileSize) := by
  constructor
  · intro maxFileSize fp chunks fs hlen
    exact (streamChunks_size_invariant maxFileSize fp chunks 0 fs hlen (Nat.zero_le _)).1
  · intro maxFileSize url resp timestamp fs fp2 fs2 h
    unfold download_file at h
    split_ifs at h with h1 h2
    · exact absurd h (by simp)
    · exact absurd h (by simp)
    · rcases hcl : resp.contentLength with _ | n
      · rw [hcl] at h
        exact streamTo_success_bound h
      · rw [hcl] at h
        have h' : (if maxFileSize < n then ((none : Option String), fs)
            else streamTo maxFileSize (downloadFilepath url resp timestamp) resp.chunks fs) =
            (some fp2, fs2) := h
        by_cases h3 : maxFileSize < n
        · rw [if_pos h3] at h'
          exact absurd h' (by simp)
        · rw [if_neg h3] at h'
          exact streamTo_success_bound h'

/-- A small plain-text response that downloads successfully. -/
def respSmall : HttpResponse :=
  { status := 200, contentType := "text/plain", contentDisposition := "",
    contentLength := none, chunks := [[1, 2, 3]] }

/-- Witness for `download_file_bytes_bounded` at a concrete trace state and
a concrete successful download. -/
theorem download_file_bytes_bounded_witness :
    fileLen [("downloads/7_f.txt", [1, 2, 3])] "downloads/7_f.txt" ≤ 50 ∧
    fileLen (download_file 50 "http://h/f.txt" respSmall 7 []).2 "downloads/7_f.txt" ≤ 50 :=
  ⟨download_file_bytes_bounded.1 50 "downloads/7_f.txt" [[1, 2, 3]] [] rfl
      [("downloads/7_f.txt", [1, 2, 3])] (by decide),
   download_file_bytes_bounded.2 50 "http://h/f.txt" respSmall 7 [] "downloads/7_f.txt"
      (download_file 50 "http://h/f.txt" respSmall 7 []).2 (by decide)⟩

/-! ### Content extraction: the link/video-id collection loops of
`_extract_links_yt_from_html`

HTML parsing itself is done by BeautifulSoup (an external collaborator):
the `href` attributes of the anchors and the `src` attributes of the
iframes it finds, in document order, are the inputs here.  `urljoin` is
likewise external and passed as a function.  The Python `set` of video ids
is modelled as a list with membership-checked insertion (Python's
`list(set)` order is unspecified; the claims only concern the absence of
duplicates). -/

/-- Insert into the modelled id set. -/
def setInsert (s : List String) (v : String) : List String :=
  if v ∈ s then s else s ++ [v]

/-- Embeds the two collection loops of `_extract_links_yt_from_html`:
anchors with falsy, fragment or `javascript:` hrefs are skipped; a
resolvable video id goes to the id set, otherwise the absolutized URL is
appended to the link list; iframe `src` values only feed the id set.
Returns `(general_links, youtube_video_ids)`. -/
def collect_links_yt (urljoinF : String → String → String) (base_url : String)
    (hrefs : List String) (srcs : List String) : List String × List String :=
  let afterAnchors := hrefs.foldl
    (fun (acc : List String × List String) href =>
      if href = "" || beginsWith ['#'] href.toList ||
         beginsWith "javascript:".toList (pyLower href.toList) then acc
      else
        match extract_youtube_video_id href with
        | some vid => (acc.1, setInsert acc.2 vid)
        | none => (acc.1 ++ [urljoinF base_url href], acc.2))
    ([], [])
  srcs.foldl
    (fun (acc : List String × List String) src =>
      if src = "" then acc
      else
        match extract_youtube_video_id src with
        | some vid => (acc.1, setInsert acc.2 vid)
        | none => acc)
    afterAnchors

theorem setInsert_nodup {s : List String} (h : s.Nodup) (v : String) :
    (setInsert s v).Nodup := by
  unfold setInsert
  split_ifs with hm
  · exact h
  · simp [List.nodup_append, h, hm]

/-- Claim C10: the video-identifier list produced by content extraction
never contains duplicates, whatever the anchors and iframes contain. -/
theorem collect_links_yt_nodup (urljoinF : String → String → String)
    (base_url : String) (hrefs : List String) (srcs : List String) :
    (collect_links_yt urljoinF base_url hrefs srcs).2.Nodup := by
  unfold collect_links_yt
  have step2 : ∀ (srcs2 : List String) (acc : List String × List String),
      acc.2.Nodup →
      (srcs2.foldl (fun (acc : List String × List String) src =>
        if src = "" then acc
        else
          match extract_youtube_video_id src with
          | some vid => (acc.1, setInsert acc.2 vid)
          | none => acc) acc).2.Nodup := by
    intro srcs2
    induction srcs2 with
    | nil => intro acc h; exact h
    | cons s rest ih =>
      intro acc h
      simp only [List.foldl_cons]
      apply ih
      split_ifs with h1
      · exact h
      · rcases hv : extract_youtube_video_id s with _ | vid
        · exact h
        · exact setInsert_nodup h vid
  apply step2
  have step1 : ∀ (hrefs2 : List String) (acc : List String × List String),
      acc.2.Nodup →
      (hrefs2.foldl (fun (acc : List String × List String) href =>
        if href = "" || beginsWith ['#'] href.toList ||
           beginsWith "javascript:".toList (pyLower href.toList) then acc
        else
          match extract_youtube_video_id href with
          | some vid => (acc.1, setInsert acc.2 vid)
          | none => (acc.1 ++ [urljoinF base_url href], acc.2)) acc).2.Nodup := by
    intro hrefs2
    induction hrefs2 with
    | nil => intro acc h; exact h
    | cons s rest ih =>
      intro acc h
      simp only [List.foldl_cons]
      apply ih
      split_ifs with h1
      · exact h
      · rcases hv : extract_youtube_video_id s with _ | vid
        · exact h
        · exact setInsert_nodup h vid
  exact step1 hrefs ([], []) List.nodup_nil

/-! ### Aggregator: the fan-out/fan-in of `generate_solution`

`asyncio.gather(*tasks, return_exceptions=True)` returns one outcome per
task — the task's value, or the exception it raised — in *input* order,
whatever order the tasks complete in.  That semantics is modelled by slot
filling: each task's completion is an event `(index, outcome)`; gather
places every event in its slot and reads the slots in index order. -/

/-- The per-assignment data (`AssignmentData` dataclass). -/
structure AssignmentData where
  id : Int
  name : String
  description : String
  links : List String
  youtube_video_ids : List String
deriving DecidableEq

/-- Result tuple of `process_single_link`: `(filename, content, url)`
(filename is `None` on download failure). -/
abbrev LinkRes := Option String × String × String

/-- Fill `n` slots from completion events (later events overwrite, though
well-formed runs deliver each index exactly once). -/
def fillSlots {α : Type} (n : Nat) (events : List (Nat × α)) : List (Option α) :=
  events.foldl (fun acc e => acc.set e.1 (some e.2)) (List.replicate n none)

/-- `asyncio.gather` as slot collection: succeeds when every slot got an
outcome, yielding the outcomes in input order.  `default` is only read
for slots no event filled (impossible in a well-formed run). -/
def gatherResults {α : Type} (default : α) (n : Nat) (events : List (Nat × α)) :
    Option (List α) :=
  let slots := fillSlots n events
  if slots.all Option.isSome then some (slots.map (fun o => o.getD default)) else none

/-- The fragment rendered for link `i` from its operation's outcome: the
`for i, result in enumerate(link_results)` loop body of
`generate_solution` (an exception becomes the error block naming
`assignment.links[i]`; a result becomes the content block with its source
label). -/
def renderLinkPart (links : List String) (i : Nat) (r : Outcome LinkRes) : String :=
  match r with
  | Outcome.exn e =>
    "--- Error processing link " ++ toString (i + 1) ++ ": " ++ links.getD i "" ++
      " ---\n[Exception: " ++ e ++ "]\n--- End Error ---"
  | Outcome.ok (fn, content, origUrl) =>
    let source_id :=
      match fn with
      | some f => if f = "" then "URL: " ++ origUrl else "File: " ++ f ++ " (from " ++ origUrl ++ ")"
      | none => "URL: " ++ origUrl
    "--- Content from " ++ source_id ++ " ---\n" ++ content ++
      "\n--- End Content from " ++ source_id ++ " ---"

/-- The fragment rendered for video `i` from its transcript operation's
outcome: the `for i, result in enumerate(transcript_results)` loop body
(`[Exception: …]` for a raise, the falsy-guarded transcript otherwise). -/
def renderVidPart (vids : List String) (i : Nat) (r : Outcome (Option String)) : String :=
  let video_id := vids.getD i ""
  let content :=
    match r with
    | Outcome.exn e => "[Exception: " ++ e ++ "]"
    | Outcome.ok t =>
      match t with
      | some s => if s = "" then "[No transcript for " ++ video_id ++ "]" else s
      | none => "[No transcript for " ++ video_id ++ "]"
  "--- YouTube Transcript (Video ID: " ++ video_id ++ ") ---\n" ++ content ++
    "\n--- End Transcript (Video ID: " ++ video_id ++ ") ---"

/-- `for i, result in enumerate(results): parts.append(render i result)`. -/
def buildParts {ρ : Type} (render : Nat → ρ → String) : Nat → List ρ → List String
  | _, [] => []
  | i, r :: rest => render i r :: buildParts render (i + 1) rest

/-- The `supplementary_content_parts` list assembled by `generate_solution`
from the gathered per-link and per-video outcomes (each section runs only
when its input list is non-empty, as in the source). -/
def supplementary_content_parts (asg : AssignmentData)
    (linkResults : List (Outcome LinkRes))
    (vidResults : List (Outcome (Option String))) : List String :=
  (if asg.links.isEmpty then [] else buildParts (renderLinkPart asg.links) 0 linkResults) ++
  (if asg.youtube_video_ids.isEmpty then []
   else buildParts (renderVidPart asg.youtube_video_ids) 0 vidResults)

/-- Slot value read when no event fills a link slot (never used in a
well-formed run). -/
def defaultLinkRes : Outcome LinkRes := Outcome.exn ""

/-- Slot value read when no event fills a video slot (never used in a
well-formed run). -/
def defaultVidRes : Outcome (Option String) := Outcome.exn ""

/-- The aggregation stage of `generate_solution`, as a function of the
completion events of the concurrently gathered per-item operations. -/
def generate_solution_parts (asg : AssignmentData)
    (linkEvents : List (Nat × Outcome LinkRes))
    (vidEvents : List (Nat × Outcome (Option String))) : Option (List String) :=
  match gatherResults defaultLinkRes asg.links.length linkEvents,
        gatherResults defaultVidRes asg.youtube_video_ids.length vidEvents with
  | some lr, some vr => some (supplementary_content_parts asg lr vr)
  | _, _ => none

/-- A well-formed completion-event list: every input index completes
exactly once (in any order). -/
abbrev CompletesAll {α : Type} (n : Nat) (events : List (Nat × α)) : Prop :=
  (events.map Prod.fst).Perm (List.range n)

theorem foldl_set_length {α : Type} (events : List (Nat × α)) :
    ∀ init : List (Option α),
      (events.foldl (fun acc e => acc.set e.1 (some e.2)) init).length = init.length := by
  induction events with
  | nil => intro init; rfl
  | cons e rest ih =>
    intro init
    simp only [List.foldl_cons]
    rw [ih]
    exact List.length_set ..

theorem fillSlots_length {α : Type} (n : Nat) (events : List (Nat × α)) :
    (fillSlots n events).length = n := by
  unfold fillSlots
  rw [foldl_set_length]
  exact List.length_replicate ..

theorem foldl_set_untouched {α : Type} (i : Nat) :
    ∀ (events : List (Nat × α)) (init : List (Option α)),
      i ∉ events.map Prod.fst →
      (events.foldl (fun acc e => acc.set e.1 (some e.2)) init).get? i = init.get? i := by
  intro events
  induction events with
  | nil => intro init _; rfl
  | cons e rest ih =>
    intro init h
    simp only [List.map_cons, List.mem_cons] at h
    push_neg at h
    simp only [List.foldl_cons]
    rw [ih _ h.2]
    exact List.get?_set_ne _ _ (fun hh => h.1 hh.symm)

theorem foldl_set_filled {α : Type} :
    ∀ (events : List (Nat × α)) (init : List (Option α)) (i : Nat) (a : α),
      (i, a) ∈ events → (events.map Prod.fst).Nodup → i < init.length →
      (events.foldl (fun acc e => acc.set e.1 (some e.2)) init).get? i = some (some a) := by
  intro events
  induction events with
  | nil => intro init i a hm; intro _ _; cases hm
  | cons e rest ih =>
    obtain ⟨j, b⟩ := e
    intro init i a hm hnd hlt
    simp only [List.map_cons, List.nodup_cons] at hnd
    simp only [List.foldl_cons]
    rcases List.mem_cons.mp hm with he | hrest
    · obtain ⟨hi, ha⟩ := Prod.mk.injEq .. ▸ he
      subst hi
      subst ha
      rw [foldl_set_untouched i rest _ hnd.1]
      exact List.get?_set_eq_of_lt _ hlt
    · apply ih _ i a hrest hnd.2
      rw [List.length_set]
      exact hlt

theorem fillSlots_all_some {α : Type} (n : Nat) (events : List (Nat × α))
    (h : CompletesAll n events) :
    (fillSlots n events).all Option.isSome = true := by
  rw [List.all_eq_true]
  intro o ho
  obtain ⟨⟨i, hi⟩, hget⟩ := List.mem_iff_get.mp ho
  have hin : i < n := by
    have := fillSlots_length n events
    omega
  have hidx : i ∈ events.map Prod.fst := h.mem_iff.mpr (List.mem_range.mpr hin)
  obtain ⟨e, hmem, hfst⟩ := List.mem_map.mp hidx
  have hnd : (events.map Prod.fst).Nodup := h.nodup_iff.mpr (List.nodup_range n)
  have hpair : (i, e.2) ∈ events := by
    have : e = (i, e.2) := by
      rw [← hfst]
    rw [← this]
    exact hmem
  have hget? := foldl_set_filled events (List.replicate n none) i e.2 hpair hnd
    (by rw [List.length_replicate]; exact hin)
  have : (fillSlots n events).get? i = some (some e.2) := hget?
  rw [List.get?_eq_get hi, hget] at this
  have := Option.some.inj this
  rw [this]
  rfl

/-- What gather delivers on a well-formed completion run: a result list of
the right length whose `i`-th entry is the outcome that completed for
input `i`, whatever the completion order was. -/
theorem gatherResults_spec {α : Type} (default : α) (n : Nat)
    (events : List (Nat × α)) (h : CompletesAll n events) :
    ∃ l, gatherResults default n events = some l ∧ l.length = n ∧
      ∀ i a, (i, a) ∈ events → l.get? i = some a := by
  have hall := fillSlots_all_some n events h
  refine ⟨(fillSlots n events).map (fun o => o.getD default), ?_, ?_, ?_⟩
  · unfold gatherResults
    rw [if_pos hall]
  · rw [List.length_map]
    exact fillSlots_length n events
  · intro i a hm
    have hnd : (events.map Prod.fst).Nodup := h.nodup_iff.mpr (List.nodup_range n)
    have hin : i < n := by
      have : i ∈ List.range n := h.mem_iff.mp (List.mem_map_of_mem Prod.fst hm)
      exact List.mem_range.mp this
    have hget? := foldl_set_filled events (List.replicate n none) i a hm hnd
      (by rw [List.length_replicate]; exact hin)
    have hfill : (fillSlots n events).get? i = some (some a) := hget?
    rw [List.get?_map, hfill]
    rfl

theorem buildParts_length {ρ : Type} (render : Nat → ρ → String) :
    ∀ (i : Nat) (rs : List ρ), (buildParts render i rs).length = rs.length := by
  intro i rs
  induction rs generalizing i with
  | nil => rfl
  | cons r rest ih =>
    simp only [buildParts, List.length_cons]
    rw [ih]

theorem buildParts_getD {ρ : Type} (render : Nat → ρ → String) (d : String) :
    ∀ (rs : List ρ) (i0 k : Nat) (r : ρ), rs.get? k = some r →
      (buildParts render i0 rs).getD k d = render (i0 + k) r := by
  intro rs
  induction rs with
  | nil => intro i0 k r h; simp at h
  | cons x rest ih =>
    intro i0 k r h
    cases k with
    | zero =>
      have : x = r := Option.some.inj h
      subst this
      show render i0 x = render (i0 + 0) x
      rw [Nat.add_zero]
    | succ k' =>
      have h' : rest.get? k' = some r := h
      show (buildParts render (i0 + 1) rest).getD k' d = render (i0 + (k' + 1)) r
      rw [ih (i0 + 1) k' r h']
      have : i0 + 1 + k' = i0 + (k' + 1) := by omega
      rw [this]

/-- Length of the fragment sections matches the gathered result lists. -/
theorem supplementary_content_parts_length (asg : AssignmentData)
    (lr : List (Outcome LinkRes)) (vr : List (Outcome (Option String)))
    (hlr : lr.length = asg.links.length)
    (hvr : vr.length = asg.youtube_video_ids.length) :
    (supplementary_content_parts asg lr vr).length =
      asg.links.length + asg.youtube_video_ids.length := by
  unfold supplementary_content_parts
  rw [List.length_append]
  have e1 : (if asg.links.isEmpty then []
      else buildParts (renderLinkPart asg.links) 0 lr).length = asg.links.length := by
    by_cases hE : asg.links.isEmpty
    · rw [if_pos hE]
      rw [List.isEmpty_iff] at hE
      simp [hE]
    · rw [if_neg hE, buildParts_length]
      exact hlr
  have e2 : (if asg.youtube_video_ids.isEmpty then []
      else buildParts (renderVidPart asg.youtube_video_ids) 0 vr).length =
      asg.youtube_video_ids.length := by
    by_cases hE : asg.youtube_video_ids.isEmpty
    · rw [if_pos hE]
      rw [List.isEmpty_iff] at hE
      simp [hE]
    · rw [if_neg hE, buildParts_length]
      exact hvr
  rw [e1, e2]

/-- Claim C1: for every assignment and every well-formed completion run of
the concurrent per-link and per-video operations — however many of them
failed or raised — aggregation produces exactly one fragment per link and
one per video id: the bundle size is `len(links) + len(video_ids)`. -/
theorem generate_solution_parts_count (asg : AssignmentData)
    (linkEvents : List (Nat × Outcome LinkRes))
    (vidEvents : List (Nat × Outcome (Option String)))
    (hL : CompletesAll asg.links.length linkEvents)
    (hV : CompletesAll asg.youtube_video_ids.length vidEvents) :
    ∃ parts, generate_solution_parts asg linkEvents vidEvents = some parts ∧
      parts.length = asg.links.length + asg.youtube_video_ids.length := by
  obtain ⟨lr, hlr, hlrlen, _⟩ := gatherResults_spec defaultLinkRes _ linkEvents hL
  obtain ⟨vr, hvr, hvrlen, _⟩ := gatherResults_spec defaultVidRes _ vidEvents hV
  refine ⟨supplementary_content_parts asg lr vr, ?_, ?_⟩
  · unfold generate_solution_parts
    rw [hlr, hvr]
  · exact supplementary_content_parts_length asg lr vr hlrlen hvrlen

/-- Claim C2: for every assignment, every well-formed completion run and
every completion order, the fragment at position `i` (for a link index
`i`) is rendered from `task.links[i]` and the outcome that completed for
link `i`, and the fragment at position `len(links) + j` is rendered from
`task.youtube_video_ids[j]` and the outcome that completed for video `j`:
the bundle is in original link order followed by original video order. -/
theorem generate_solution_parts_order (asg : AssignmentData)
    (linkEvents : List (Nat × Outcome LinkRes))
    (vidEvents : List (Nat × Outcome (Option String)))
    (parts : List String)
    (hL : CompletesAll asg.links.length linkEvents)
    (hV : CompletesAll asg.youtube_video_ids.length vidEvents)
    (hparts : generate_solution_parts asg linkEvents vidEvents = some parts) :
    (∀ i a, (i, a) ∈ linkEvents → parts.getD i "" = renderLinkPart asg.links i a) ∧
    (∀ j b, (j, b) ∈ vidEvents →
      parts.getD (asg.links.length + j) "" = renderVidPart asg.youtube_video_ids j b) := by
  obtain ⟨lr, hlr, hlrlen, hlget⟩ := gatherResults_spec defaultLinkRes _ linkEvents hL
  obtain ⟨vr, hvr, hvrlen, hvget⟩ := gatherResults_spec defaultVidRes _ vidEvents hV
  have hp : parts = supplementary_content_parts asg lr vr := by
    unfold generate_solution_parts at hparts
    rw [hlr, hvr] at hparts
    exact (Option.some.inj hparts).symm
  subst hp
  have hAlen : (if asg.links.isEmpty then []
      else buildParts (renderLinkPart asg.links) 0 lr).length = asg.links.length := by
    by_cases hE : asg.links.isEmpty
    · rw [if_pos hE]
      rw [List.isEmpty_iff] at hE
      simp [hE]
    · rw [if_neg hE, buildParts_length]
      exact hlrlen
  constructor
  · intro i a hm
    have hgl := hlget i a hm
    have hiN : i < asg.links.length := by
      obtain ⟨hlt, _⟩ := List.get?_eq_some.mp hgl
      omega
    have hNe : ¬ asg.links.isEmpty = true := by
      rw [List.isEmpty_iff]
      intro hnil
      rw [hnil] at hiN
      simp at hiN
    unfold supplementary_content_parts
    rw [List.getD_append _ _ _ _ (by rw [hAlen]; exact hiN)]
    rw [if_neg hNe]
    have hb := buildParts_getD (renderLinkPart asg.links) "" lr 0 i a hgl
    rw [Nat.zero_add] at hb
    exact hb
  · intro j b hm
    have hgv := hvget j b hm
    have hjM : j < asg.youtube_video_ids.length := by
      obtain ⟨hlt, _⟩ := List.get?_eq_some.mp hgv
      omega
    have hMe : ¬ asg.youtube_video_ids.isEmpty = true := by
      rw [List.isEmpty_iff]
      intro hnil
      rw [hnil] at hjM
      simp at hjM
    unfold supplementary_content_parts
    rw [List.getD_append_right _ _ _ _ (by rw [hAlen]; omega)]
    rw [hAlen]
    have hidx : asg.links.length + j - asg.links.length = j := by omega
    rw [hidx, if_neg hMe]
    have hb := buildParts_getD (renderVidPart asg.youtube_video_ids) "" vr 0 j b hgv
    rw [Nat.zero_add] at hb
    exact hb

/-- A concrete assignment with two links and one video. -/
def asgW : AssignmentData :=
  { id := 1, name := "hw1", description := "desc",
    links := ["http://a", "http://b"], youtube_video_ids := ["vid00000000"] }

/-- Link completions arriving out of input order, one of them a raise. -/
def linkEventsW : List (Nat × Outcome LinkRes) :=
  [(1, Outcome.exn "boom"), (0, Outcome.ok (some "f.txt", "text", "http://a"))]

/-- The single video completion. -/
def vidEventsW : List (Nat × Outcome (Option String)) :=
  [(0, Outcome.ok (some "summary"))]

/-- Witness for `generate_solution_parts_count`. -/
theorem generate_solution_parts_count_witness :
    ∃ parts, generate_solution_parts asgW linkEventsW vidEventsW = some parts ∧
      parts.length = asgW.links.length + asgW.youtube_video_ids.length :=
  generate_solution_parts_count asgW linkEventsW vidEventsW (by decide) (by decide)

/-- Witness for `generate_solution_parts_order`: with completions out of
order, position 1 still renders link 1's outcome and position 2 the
video's. -/
theorem generate_solution_parts_order_witness :
    ((generate_solution_parts asgW linkEventsW vidEventsW).getD []).getD 1 "" =
      renderLinkPart asgW.links 1 (Outcome.exn "boom") ∧
    ((generate_solution_parts asgW linkEventsW vidEventsW).getD []).getD
        (asgW.links.length + 0) "" =
      renderVidPart asgW.youtube_video_ids 0 (Outcome.ok (some "summary")) := by
  have h := generate_solution_parts_order asgW linkEventsW vidEventsW
    ((generate_solution_parts asgW linkEventsW vidEventsW).getD [])
    (by decide) (by decide) (by decide)
  exact ⟨h.1 1 (Outcome.exn "boom") (by decide),
         h.2 0 (Outcome.ok (some "summary")) (by decide)⟩

/-! ### Lenient structured-output parsing: `remove_think_tags` and
`generate_reflective_questions`

`json.loads` is embedded as a recursive-descent parser over characters:
objects, arrays, strings with escapes, numbers (plus Python's `NaN` /
`Infinity` / `-Infinity` constants), `true`/`false`/`null`, with JSON
whitespace, strict control-character rejection in strings, and a full-
consumption check ("Extra data").  Number values are kept as lexemes (the
claims only need truthiness); a `\uXXXX` escape decodes through
`Char.ofNat`. -/

/-- A parsed JSON value.  Object members stay in textual order; lookup
takes the last binding, matching Python dict construction. -/
inductive Json where
  | null
  | bool (b : Bool)
  | num (lex : String)
  | str (s : String)
  | arr (xs : List Json)
  | obj (ms : List (String × Json))

/-- JSON whitespace (`json.decoder.WHITESPACE`). -/
def jsonWs (c : Char) : Bool := c = ' ' || c = '\t' || c = '\n' || c = '\r'

/-- Skip JSON whitespace. -/
def skipWs : List Char → List Char
  | [] => []
  | c :: r => if jsonWs c then skipWs r else c :: r

/-- Longest run of ASCII digits at the head, and the rest. -/
def scanDigits : List Char → List Char × List Char
  | [] => ([], [])
  | c :: r =>
    if c.isDigit then
      let p := scanDigits r
      (c :: p.1, p.2)
    else ([], c :: r)

/-- The integer part `(0|[1-9]\d*)` of `json`'s NUMBER_RE. -/
def parseIntPart : List Char → Option (List Char × List Char)
  | [] => none
  | c :: r =>
    if c = '0' then some (['0'], r)
    else if c.isDigit then
      let p := scanDigits r
      some (c :: p.1, p.2)
    else none

/-- The optional fraction `(\.\d+)?` (consumed only when well-formed). -/
def parseFracPart : List Char → List Char × List Char
  | '.' :: c :: r =>
    if c.isDigit then
      let p := scanDigits r
      ('.' :: c :: p.1, p.2)
    else ([], '.' :: c :: r)
  | l => ([], l)

/-- The optional exponent `([eE][-+]?\d+)?` (consumed only when well-formed). -/
def parseExpPart : List Char → List Char × List Char
  | e :: s :: r =>
    if e = 'e' || e = 'E' then
      if s = '+' || s = '-' then
        match r with
        | c :: r2 =>
          if c.isDigit then
            let p := scanDigits r2
            (e :: s :: c :: p.1, p.2)
          else ([], e :: s :: r)
        | [] => ([], e :: s :: r)
      else if s.isDigit then
        let p := scanDigits r
        (e :: s :: p.1, p.2)
      else ([], e :: s :: r)
    else ([], e :: s :: r)
  | l => ([], l)

/-- A JSON number at the head of the input (kept as its lexeme). -/
def parseNum (l : List Char) : Option (Json × List Char) :=
  match l with
  | '-' :: r =>
    match parseIntPart r with
    | some (ip, t) =>
      let f := parseFracPart t
      let ex := parseExpPart f.2
      some (Json.num (String.mk (('-' :: ip) ++ f.1 ++ ex.1)), ex.2)
    | none => none
  | _ =>
    match parseIntPart l with
    | some (ip, t) =>
      let f := parseFracPart t
      let ex := parseExpPart f.2
      some (Json.num (String.mk (ip ++ f.1 ++ ex.1)), ex.2)
    | none => none

/-- Single-character string escapes of JSON. -/
def escChar (e : Char) : Option Char :=
  if e = '"' then some '"'
  else if e = '\\' then some '\\'
  else if e = '/' then some '/'
  else if e = 'b' then some '\x08'
  else if e = 'f' then some '\x0c'
  else if e = 'n' then some '\n'
  else if e = 'r' then some '\r'
  else if e = 't' then some '\t'
  else none

/-- Value of one hex digit. -/
def hexVal (c : Char) : Option Nat :=
  let n := c.toNat
  if 48 ≤ n ∧ n ≤ 57 then some (n - 48)
  else if 97 ≤ n ∧ n ≤ 102 then some (n - 87)
  else if 65 ≤ n ∧ n ≤ 70 then some (n - 55)
  else none

/-- The rest of a JSON string after the opening quote: decoded characters
and the input after the closing quote.  Control characters are rejected
(strict mode); escapes decode; `\uXXXX` requires four hex digits. -/
def parseStrRest : List Char → Option (List Char × List Char)
  | [] => none
  | c :: r =>
    if c = '"' then some ([], r)
    else if c = '\\' then
      match r with
      | [] => none
      | e :: r2 =>
        if e = 'u' then
          match r2 with
          | h1 :: h2 :: h3 :: h4 :: r3 =>
            match hexVal h1, hexVal h2, hexVal h3, hexVal h4 with
            | some a, some b, some c2, some d =>
              match parseStrRest r3 with
              | some (s, t) => some (Char.ofNat (((a * 16 + b) * 16 + c2) * 16 + d) :: s, t)
              | none => none
            | _, _, _, _ => none
          | _ => none
        else
          match escChar e with
          | some ec =>
            match parseStrRest r2 with
            | some (s, t) => some (ec :: s, t)
            | none => none
          | none => none
    else if c.toNat < 32 then none
    else
      match parseStrRest r with
      | some (s, t) => some (c :: s, t)
      | none => none

/-- Which grammar production the core parser is working on: a value, the
inside of an object after `{` / after a member, or the inside of an array
after `[` / after an element. -/
inductive PTask where
  | val | mems | memsMore | elems | elemsMore
deriving DecidableEq

/-- The result a production yields. -/
inductive PRes where
  | v (x : Json)
  | ms (x : List (String × Json))
  | xs (x : List Json)

/-- The recursive-descent core of `json.loads`, fuelled (one unit per
nesting step; `consumed length + 1` always suffices, see
`parseCore_master`). -/
def parseCore : Nat → PTask → List Char → Option (PRes × List Char)
  | 0, _, _ => none
  | Nat.succ fuel, PTask.val, l =>
    match skipWs l with
    | [] => none
    | c :: r =>
      if c = '{' then
        match parseCore fuel PTask.mems r with
        | some (PRes.ms ms, t) => some (PRes.v (Json.obj ms), t)
        | _ => none
      else if c = '[' then
        match parseCore fuel PTask.elems r with
        | some (PRes.xs xs, t) => some (PRes.v (Json.arr xs), t)
        | _ => none
      else if c = '"' then
        match parseStrRest r with
        | some (s, t) => some (PRes.v (Json.str (String.mk s)), t)
        | none => none
      else if c = 't' then
        if beginsWith "rue".toList r then some (PRes.v (Json.bool true), r.drop 3) else none
      else if c = 'f' then
        if beginsWith "alse".toList r then some (PRes.v (Json.bool false), r.drop 4) else none
      else if c = 'n' then
        if beginsWith "ull".toList r then some (PRes.v Json.null, r.drop 3) else none
      else if c = 'N' then
        if beginsWith "aN".toList r then some (PRes.v (Json.num "NaN"), r.drop 2) else none
      else if c = 'I' then
        if beginsWith "nfinity".toList r then
          some (PRes.v (Json.num "Infinity"), r.drop 7)
        else none
      else if c = '-' then
        if beginsWith "Infinity".toList r then
          some (PRes.v (Json.num "-Infinity"), r.drop 8)
        else
          match parseNum (c :: r) with
          | some (j, t) => some (PRes.v j, t)
          | none => none
      else
        match parseNum (c :: r) with
        | some (j, t) => some (PRes.v j, t)
        | none => none
  | Nat.succ fuel, PTask.mems, l =>
    match skipWs l with
    | [] => none
    | c :: r =>
      if c = '}' then some (PRes.ms [], r)
      else if c = '"' then
        match parseStrRest r with
        | some (k, t) =>
          match skipWs t with
          | ':' :: t2 =>
            match parseCore fuel PTask.val t2 with
            | some (PRes.v v, t3) =>
              match parseCore fuel PTask.memsMore t3 with
              | some (PRes.ms ms, t4) => some (PRes.ms ((String.mk k, v) :: ms), t4)
              | _ => none
            | _ => none
          | _ => none
        | none => none
      else none
  | Nat.succ fuel, PTask.memsMore, l =>
    match skipWs l with
    | '}' :: r => some (PRes.ms [], r)
    | ',' :: r =>
      match skipWs r with
      | '"' :: r2 =>
        match parseStrRest r2 with
        | some (k, t) =>
          match skipWs t with
          | ':' :: t2 =>
            match parseCore fuel PTask.val t2 with
            | some (PRes.v v, t3) =>
              match parseCore fuel PTask.memsMore t3 with
              | some (PRes.ms ms, t4) => some (PRes.ms ((String.mk k, v) :: ms), t4)
              | _ => none
            | _ => none
          | _ => none
        | none => none
      | _ => none
    | _ => none
  | Nat.succ fuel, PTask.elems, l =>
    match skipWs l with
    | ']' :: r => some (PRes.xs [], r)
    | t =>
      match parseCore fuel PTask.val t with
      | some (PRes.v v, t2) =>
        match parseCore fuel PTask.elemsMore t2 with
        | some (PRes.xs xs, t3) => some (PRes.xs (v :: xs), t3)
        | _ => none
      | _ => none
  | Nat.succ fuel, PTask.elemsMore, l =>
    match skipWs l with
    | ']' :: r => some (PRes.xs [], r)
    | ',' :: r =>
      match parseCore fuel PTask.val r with
      | some (PRes.v v, t2) =>
        match parseCore fuel PTask.elemsMore t2 with
        | some (PRes.xs xs, t3) => some (PRes.xs (v :: xs), t3)
        | _ => none
      | _ => none
    | _ => none

/-- `json.loads` on a character list: parse one value with generous fuel
and require only whitespace afterwards ("Extra data" otherwise). -/
def jsonParseL (l : List Char) : Option Json :=
  match parseCore (l.length + 1) PTask.val l with
  | some (PRes.v v, r) => if skipWs r = [] then some v else none
  | _ => none

/-- `json.loads` on a string. -/
def jsonParse (s : String) : Option Json := jsonParseL s.toList

example : jsonParse "\x7b\"questions\":[\"Q1\",\"Q2\"]\x7d" =
    some (Json.obj [("questions", Json.arr [Json.str "Q1", Json.str "Q2"])]) := rfl

example : jsonParse "  [1, 2.5e3, true, null, \"a\\n\"] " =
    some (Json.arr [Json.num "1", Json.num "2.5e3", Json.bool true, Json.null,
      Json.str "a\n"]) := rfl

example : jsonParse "\x7b\"a\":1" = none := rfl

example : jsonParse "01" = none := rfl

example : jsonParse "-Infinity" = some (Json.num "-Infinity") := rfl

/-- Lookup in a parsed object with Python dict semantics: the last binding
of the key wins. -/
def objGet (ms : List (String × Json)) (k : String) : Option Json :=
  (ms.reverse.find? (fun e => e.1 == k)).map Prod.snd

/-- Truthiness of a number lexeme (`NaN`/`Infinity` are truthy; otherwise
a number is truthy iff its mantissa has a non-zero digit). -/
def numTruthy (lex : String) : Bool :=
  if lex = "NaN" || lex = "Infinity" || lex = "-Infinity" then true
  else (lex.toList.takeWhile (fun c => !(c = 'e' || c = 'E'))).any
    (fun c => c.isDigit && !(c = '0'))

/-- Python truthiness of a JSON value. -/
def pyTruthy : Json → Bool
  | Json.null => false
  | Json.bool b => b
  | Json.num lex => numTruthy lex
  | Json.str s => !(s == "")
  | Json.arr xs => !xs.isEmpty
  | Json.obj ms => !ms.isEmpty

/-- The input after the first occurrence of `pat` (when there is one). -/
def dropAfterSeq (pat : List Char) : List Char → Option (List Char)
  | [] => none
  | c :: r =>
    if beginsWith pat (c :: r) then some ((c :: r).drop pat.length)
    else dropAfterSeq pat r

/-- `re.sub(r"<think>.*?</think>", "", text, flags=re.DOTALL)`: each
`<think>` opener with a closer is removed up to the *earliest* `</think>`
(non-greedy); an unmatched opener stays.  The fuel (the input length)
bounds the recursion over removed blocks. -/
def removeThinkL : Nat → List Char → List Char
  | 0, l => l
  | Nat.succ f, l =>
    match l with
    | [] => []
    | c :: r =>
      if beginsWith "<think>".toList (c :: r) then
        match dropAfterSeq "</think>".toList ((c :: r).drop 7) with
        | some rest => removeThinkL f rest
        | none => c :: removeThinkL f r
      else c :: removeThinkL f r

/-- The suffix starting at the first `'{'`. -/
def fromFirstBrace : List Char → Option (List Char)
  | [] => none
  | c :: r => if c = '{' then some (c :: r) else fromFirstBrace r

/-- The prefix ending at the last `'}'`. -/
def upThroughLastClose (t : List Char) : Option (List Char) :=
  let rr := t.reverse.dropWhile (fun c => !(c = '}'))
  if rr.isEmpty then none else some rr.reverse

/-- `re.findall(r"\x7b.*\x7d", cleaned, re.DOTALL)` produces at most one
candidate: the greedy, non-overlapping scan matches from the first `'{'`
to the last `'}'` (when one follows), consuming every later `'}'`, so no
second match exists.  Sorting the candidates by length is therefore the
identity. -/
def braceCandidate (l : List Char) : Option (List Char) :=
  match fromFirstBrace l with
  | some t => upThroughLastClose t
  | none => none

/-- The dictionary `remove_think_tags` falls back to on total parse
failure. -/
def parseErrFallback : Json :=
  Json.obj [("questions", Json.arr [Json.str "Error: Could not parse AI response"])]

/-- Embeds `remove_think_tags`: strip think blocks, try the brace-delimited
candidate, then the whole cleaned text, else the error-question fallback. -/
def remove_think_tags (response_text : String) : Json :=
  let cleaned := removeThinkL response_text.length response_text.toList
  match braceCandidate cleaned with
  | some cand =>
    match jsonParseL cand with
    | some v => v
    | none =>
      match jsonParseL cleaned with
      | some v => v
      | none => parseErrFallback
  | none =>
    match jsonParseL cleaned with
    | some v => v
    | none => parseErrFallback

/-- The default reflective question of `generate_reflective_questions`. -/
def defaultQuestion : String := "What did you learn from this experience?"

/-- Embeds `generate_reflective_questions`.  The OpenAI call sits *outside*
the `try` block in the source, so a raised exception propagates to the
caller (`Except.error`).  `collab` is the call's outcome; `none` models an
empty `choices` list or a `None` content, and falsy (empty) content takes
the same default branch.  A non-dict parse result makes `parsed.get`
raise `AttributeError`, which the `except Exception` handler turns into
the default question list. -/
def generate_reflective_questions (collab : Outcome (Option String)) :
    Except String Json :=
  match collab with
  | Outcome.exn e => Except.error e
  | Outcome.ok content =>
    match content with
    | none => Except.ok (Json.arr [Json.str defaultQuestion])
    | some text =>
      if text = "" then Except.ok (Json.arr [Json.str defaultQuestion])
      else
        match remove_think_tags text with
        | Json.obj ms =>
          let question_set := (objGet ms "questions").getD (Json.arr [])
          if pyTruthy question_set then Except.ok question_set
          else Except.ok (Json.arr [Json.str defaultQuestion])
        | _ => Except.ok (Json.arr [Json.str defaultQuestion])

example : generate_reflective_questions
    (Outcome.ok (some "<think>reasoning</think>\x7b\"questions\":[\"Q1\",\"Q2\"]\x7d")) =
    Except.ok (Json.arr [Json.str "Q1", Json.str "Q2"]) := rfl

example : generate_reflective_questions (Outcome.ok (some "no structure at all")) =
    Except.ok (Json.arr [Json.str "Error: Could not parse AI response"]) := rfl

example : generate_reflective_questions (Outcome.ok (some "[\"not\",\"a\",\"dict\"]")) =
    Except.ok (Json.arr [Json.str defaultQuestion]) := rfl

example : generate_reflective_questions (Outcome.exn "APIConnectionError") =
    Except.error "APIConnectionError" := rfl

/-- Counterexample to claim C4 as stated: the OpenAI call sits *outside*
the `try` block of `generate_reflective_questions`, so a collaborator that
raises makes the operation raise to its caller rather than return a
question list. -/
theorem generate_reflective_questions_raises_cex :
    generate_reflective_questions (Outcome.exn "APIConnectionError") =
      Except.error "APIConnectionError" := rfl

/-- Claim C4 (amended): whenever the collaborator call itself returns
(without raising), the operation never raises and returns a truthy
(non-empty) value — the default singleton question list, or the truthy
`questions` entry parsed from the response (which, when it is a list, is
non-empty).  When the collaborator raises, the exception propagates. -/
theorem generate_reflective_questions_ok (content : Option String) :
    ∃ v, generate_reflective_questions (Outcome.ok content) = Except.ok v ∧
      pyTruthy v = true ∧ ∀ xs, v = Json.arr xs → xs ≠ ([] : List Json) := by
  have hdef : pyTruthy (Json.arr [Json.str defaultQuestion]) = true := rfl
  have hdefne : ∀ xs, Json.arr [Json.str defaultQuestion] = Json.arr xs →
      xs ≠ ([] : List Json) := by
    intro xs hxs
    cases hxs
    simp
  cases content with
  | none => exact ⟨_, rfl, hdef, hdefne⟩
  | some text =>
    by_cases ht : text = ""
    · subst ht
      exact ⟨_, rfl, hdef, hdefne⟩
    · have hred : generate_reflective_questions (Outcome.ok (some text)) =
          (match remove_think_tags text with
           | Json.obj ms =>
             if pyTruthy ((objGet ms "questions").getD (Json.arr [])) then
               Except.ok ((objGet ms "questions").getD (Json.arr []))
             else Except.ok (Json.arr [Json.str defaultQuestion])
           | _ => Except.ok (Json.arr [Json.str defaultQuestion])) := by
        show (if text = "" then Except.ok (Json.arr [Json.str defaultQuestion]) else _) = _
        rw [if_neg ht]
      rw [hred]
      rcases remove_think_tags text with _ | b | lex | s | xs0 | ms
      · exact ⟨_, rfl, hdef, hdefne⟩
      · exact ⟨_, rfl, hdef, hdefne⟩
      · exact ⟨_, rfl, hdef, hdefne⟩
      · exact ⟨_, rfl, hdef, hdefne⟩
      · exact ⟨_, rfl, hdef, hdefne⟩
      · by_cases hq : pyTruthy ((objGet ms "questions").getD (Json.arr [])) = true
        · refine ⟨(objGet ms "questions").getD (Json.arr []), ?_, hq, ?_⟩
          · show (if pyTruthy ((objGet ms "questions").getD (Json.arr [])) = true
                then Except.ok ((objGet ms "questions").getD (Json.arr []))
                else Except.ok (Json.arr [Json.str defaultQuestion])) = _
            rw [if_pos hq]
          · intro xs hxs
            rw [hxs] at hq
            intro hnil
            subst hnil
            simp [pyTruthy] at hq
        · refine ⟨Json.arr [Json.str defaultQuestion], ?_, hdef, hdefne⟩
          show (if pyTruthy ((objGet ms "questions").getD (Json.arr [])) = true
              then Except.ok ((objGet ms "questions").getD (Json.arr []))
              else Except.ok (Json.arr [Json.str defaultQuestion])) = _
          rw [if_neg hq]

/-- Witness for `generate_reflective_questions_ok`. -/
theorem generate_reflective_questions_ok_witness :
    ∃ v, generate_reflective_questions (Outcome.ok (some "no structure at all")) =
        Except.ok v ∧
      pyTruthy v = true ∧ ∀ xs, v = Json.arr xs → xs ≠ ([] : List Json) :=
  generate_reflective_questions_ok (some "no structure at all")

/-! Parser determinism lemmas.  The goal (needed by claim C7's universal
clause) is: when the cleaned response parses as a JSON object, the region
the parser consumed is itself a brace-delimited substring that parses —
so a response *without* any valid brace-delimited substring can never
reach the successful-questions path. -/

theorem beginsWith_split {p l : List Char} (h : beginsWith p l = true) :
    l = p ++ l.drop p.length := by
  induction p generalizing l with
  | nil => simp
  | cons x ps ih =>
    cases l with
    | nil => simp [beginsWith] at h
    | cons c cs =>
      simp only [beginsWith, Bool.and_eq_true, decide_eq_true_eq] at h
      obtain ⟨hx, hb⟩ := h
      subst hx
      simpa using ih hb

theorem beginsWith_append (p X : List Char) : beginsWith p (p ++ X) = true := by
  induction p with
  | nil => rfl
  | cons x ps ih => simpa [beginsWith] using ih

theorem skipWs_append_ws {w : List Char} (hw : ∀ c ∈ w, jsonWs c = true)
    (x : List Char) : skipWs (w ++ x) = skipWs x := by
  induction w with
  | nil => rfl
  | cons c r ih =>
    have hc : jsonWs c = true := hw c (List.mem_cons_self ..)
    simp only [List.cons_append, skipWs, hc, if_true]
    exact ih (fun d hd => hw d (List.mem_cons_of_mem _ hd))

theorem skipWs_not_ws {c : Char} (hc : jsonWs c = false) (r : List Char) :
    skipWs (c :: r) = c :: r := by
  simp [skipWs, hc]

theorem skipWs_split (l : List Char) :
    ∃ w, l = w ++ skipWs l ∧ ∀ c ∈ w, jsonWs c = true := by
  induction l with
  | nil => exact ⟨[], rfl, by intro c hc; cases hc⟩
  | cons c r ih =>
    cases hc : jsonWs c with
    | true =>
      obtain ⟨w, hw, hws⟩ := ih
      refine ⟨c :: w, ?_, ?_⟩
      · simp only [skipWs, hc, if_true, List.cons_append]
        exact congrArg (c :: ·) hw
      · intro d hd
        rcases List.mem_cons.mp hd with h1 | h2
        · exact h1 ▸ hc
        · exact hws d h2
    | false =>
      refine ⟨[], ?_, ?_⟩
      · simp [skipWs, hc]
      · intro d hd; cases hd

theorem scanDigits_cons_digit {c : Char} (hc : c.isDigit = true) (r : List Char) :
    scanDigits (c :: r) = (c :: (scanDigits r).1, (scanDigits r).2) := by
  simp [scanDigits, hc]

theorem scanDigits_cons_nondigit {c : Char} (hc : c.isDigit = false) (r : List Char) :
    scanDigits (c :: r) = ([], c :: r) := by
  simp [scanDigits, hc]

/-- Shape of a digit scan: the input splits into the all-digit run and a
rest that is empty or starts with a non-digit. -/
theorem scanDigits_inv (l : List Char) :
    l = (scanDigits l).1 ++ (scanDigits l).2 ∧
    (∀ c ∈ (scanDigits l).1, c.isDigit = true) ∧
    ((scanDigits l).2 = [] ∨ ∃ c r, (scanDigits l).2 = c :: r ∧ c.isDigit = false) := by
  induction l with
  | nil => exact ⟨rfl, (by intro c hc; cases hc), Or.inl rfl⟩
  | cons c r ih =>
    cases hc : c.isDigit with
    | true =>
      obtain ⟨h1, h2, h3⟩ := ih
      rw [scanDigits_cons_digit hc]
      refine ⟨by simpa using congrArg (c :: ·) h1, ?_, h3⟩
      intro d hd
      rcases List.mem_cons.mp hd with h4 | h5
      · exact h4 ▸ hc
      · exact h2 d h5
    | false =>
      rw [scanDigits_cons_nondigit hc]
      exact ⟨rfl, (by intro d hd; cases hd), Or.inr ⟨c, r, rfl, hc⟩⟩

/-- Rebuild a digit scan from its shape. -/
theorem scanDigits_build {d Y : List Char} (hd : ∀ c ∈ d, c.isDigit = true)
    (hY : Y = [] ∨ ∃ c r, Y = c :: r ∧ c.isDigit = false) :
    scanDigits (d ++ Y) = (d, Y) := by
  induction d with
  | nil =>
    rcases hY with h | ⟨c, r, hcr, hc⟩
    · subst h; rfl
    · subst hcr
      simpa using scanDigits_cons_nondigit hc r
  | cons c cs ih =>
    have hc : c.isDigit = true := hd c (List.mem_cons_self ..)
    have := ih (fun x hx => hd x (List.mem_cons_of_mem _ hx))
    simp only [List.cons_append]
    rw [scanDigits_cons_digit hc, this]


theorem parseFracPart_dot (c : Char) (r : List Char) :
    parseFracPart ('.' :: c :: r) =
      if c.isDigit then ('.' :: c :: (scanDigits r).1, (scanDigits r).2)
      else ([], '.' :: c :: r) := rfl

theorem parseFracPart_single (c : Char) : parseFracPart [c] = ([], [c]) := by
  unfold parseFracPart
  split
  · rename_i c2 r2 heq
    simp at heq
  · rfl

theorem parseFracPart_not_dot {c : Char} (hc : c ≠ '.') (d : Char) (l : List Char) :
    parseFracPart (c :: d :: l) = ([], c :: d :: l) := by
  unfold parseFracPart
  split
  · rename_i c2 r2 heq
    injection heq with h1 _
    exact absurd h1 hc
  · rfl

theorem parseFracPart_build {c : Char} {ds Y : List Char} (hc : c.isDigit = true)
    (hds : ∀ x ∈ ds, x.isDigit = true)
    (hY : Y = [] ∨ ∃ y r, Y = y :: r ∧ y.isDigit = false) :
    parseFracPart ('.' :: c :: (ds ++ Y)) = ('.' :: c :: ds, Y) := by
  rw [parseFracPart_dot, if_pos hc, scanDigits_build hds hY]

theorem parseFracPart_none_prefix {Y Z : List Char}
    (h : parseFracPart (Y ++ Z) = ([], Y ++ Z)) : parseFracPart Y = ([], Y) := by
  rcases Y with _ | ⟨c, Y⟩
  · rfl
  rcases Y with _ | ⟨d, Y⟩
  · exact parseFracPart_single c
  by_cases hc : c = '.'
  · subst hc
    have hd : d.isDigit = false := by
      cases hd2 : d.isDigit with
      | false => rfl
      | true =>
        rw [show ('.' :: d :: Y) ++ Z = '.' :: d :: (Y ++ Z) by simp] at h
        rw [parseFracPart_dot, if_pos hd2] at h
        simp at h
    rw [parseFracPart_dot, if_neg (by simp [hd])]
  · exact parseFracPart_not_dot hc d Y

/-- Shape of the fraction matcher's output: no match (nothing consumed) or
a well-formed `.digits` run with a non-digit (or empty) boundary. -/
theorem parseFracPart_inv (l : List Char) :
    ((parseFracPart l).1 = [] ∧ (parseFracPart l).2 = l) ∨
    (∃ c ds, (parseFracPart l).1 = '.' :: c :: ds ∧ c.isDigit = true ∧
      (∀ x ∈ ds, x.isDigit = true) ∧ l = (parseFracPart l).1 ++ (parseFracPart l).2 ∧
      ((parseFracPart l).2 = [] ∨
        ∃ y r, (parseFracPart l).2 = y :: r ∧ y.isDigit = false)) := by
  rcases l with _ | ⟨c, l⟩
  · exact Or.inl ⟨rfl, rfl⟩
  rcases l with _ | ⟨d, l⟩
  · rw [parseFracPart_single]
    exact Or.inl ⟨rfl, rfl⟩
  by_cases hc : c = '.'
  · subst hc
    cases hd : d.isDigit with
    | true =>
      rw [parseFracPart_dot, if_pos hd]
      obtain ⟨h1, h2, h3⟩ := scanDigits_inv l
      refine Or.inr ⟨d, (scanDigits l).1, rfl, hd, h2, ?_, h3⟩
      simpa using congrArg (fun x => '.' :: d :: x) h1
    | false =>
      rw [parseFracPart_dot, if_neg (by simp [hd])]
      exact Or.inl ⟨rfl, rfl⟩
  · rw [parseFracPart_not_dot hc d l]
    exact Or.inl ⟨rfl, rfl⟩

theorem parseExpPart_two (e s : Char) (r : List Char) :
    parseExpPart (e :: s :: r) =
      if e = 'e' || e = 'E' then
        if s = '+' || s = '-' then
          match r with
          | c :: r2 =>
            if c.isDigit then (e :: s :: c :: (scanDigits r2).1, (scanDigits r2).2)
            else ([], e :: s :: r)
          | [] => ([], e :: s :: r)
        else if s.isDigit then (e :: s :: (scanDigits r).1, (scanDigits r).2)
        else ([], e :: s :: r)
      else ([], e :: s :: r) := rfl

theorem parseExpPart_nil : parseExpPart [] = ([], []) := rfl

theorem parseExpPart_single (e : Char) : parseExpPart [e] = ([], [e]) := by
  unfold parseExpPart
  split
  · rename_i e2 s2 r2 heq
    simp at heq
  · rfl

theorem parseExpPart_build_sign {e s c : Char} {ds Y : List Char}
    (he : (e = 'e' || e = 'E') = true) (hs : (s = '+' || s = '-') = true)
    (hc : c.isDigit = true) (hds : ∀ x ∈ ds, x.isDigit = true)
    (hY : Y = [] ∨ ∃ y r, Y = y :: r ∧ y.isDigit = false) :
    parseExpPart (e :: s :: c :: (ds ++ Y)) = (e :: s :: c :: ds, Y) := by
  rw [parseExpPart_two, if_pos he, if_pos hs]
  show (if c.isDigit then (e :: s :: c :: (scanDigits (ds ++ Y)).1, (scanDigits (ds ++ Y)).2)
        else ([], e :: s :: c :: (ds ++ Y))) = _
  rw [if_pos hc, scanDigits_build hds hY]

theorem parseExpPart_build_nosign {e s : Char} {ds Y : List Char}
    (he : (e = 'e' || e = 'E') = true) (hs : s.isDigit = true)
    (hds : ∀ x ∈ ds, x.isDigit = true)
    (hY : Y = [] ∨ ∃ y r, Y = y :: r ∧ y.isDigit = false) :
    parseExpPart (e :: s :: (ds ++ Y)) = (e :: s :: ds, Y) := by
  have hns : ¬((s = '+' || s = '-') = true) := by
    intro hcon
    rcases Bool.or_eq_true_iff.mp hcon with h1 | h1 <;>
    · have h2 := of_decide_eq_true h1
      subst h2
      exact absurd hs (by decide)
  rw [parseExpPart_two, if_pos he, if_neg hns, if_pos hs, scanDigits_build hds hY]

theorem parseExpPart_none_prefix {Y Z : List Char}
    (h : parseExpPart (Y ++ Z) = ([], Y ++ Z)) : parseExpPart Y = ([], Y) := by
  rcases Y with _ | ⟨e, Y⟩
  · rfl
  rcases Y with _ | ⟨s, Y⟩
  · exact parseExpPart_single e
  rw [show (e :: s :: Y) ++ Z = e :: s :: (Y ++ Z) by simp] at h
  rw [parseExpPart_two] at h
  rw [parseExpPart_two]
  by_cases he : (e = 'e' || e = 'E') = true
  · rw [if_pos he] at h ⊢
    by_cases hs : (s = '+' || s = '-') = true
    · rw [if_pos hs] at h ⊢
      rcases Y with _ | ⟨c, Y⟩
      · rfl
      have hcd : c.isDigit = false := by
        cases hcd2 : c.isDigit with
        | false => rfl
        | true =>
          rw [show (c :: Y) ++ Z = c :: (Y ++ Z) by simp] at h
          have h2 : (if c.isDigit then
              (e :: s :: c :: (scanDigits (Y ++ Z)).1, (scanDigits (Y ++ Z)).2)
              else ([], e :: s :: c :: (Y ++ Z))) = ([], e :: s :: c :: (Y ++ Z)) := h
          rw [if_pos hcd2] at h2
          simp at h2
      show (if c.isDigit then (e :: s :: c :: (scanDigits Y).1, (scanDigits Y).2)
            else ([], e :: s :: c :: Y)) = ([], e :: s :: c :: Y)
      rw [if_neg (by simp [hcd])]
    · rw [if_neg hs] at h ⊢
      by_cases hsd : s.isDigit = true
      · rw [if_pos hsd] at h
        simp at h
      · rw [if_neg hsd] at h ⊢
  · rw [if_neg he]

theorem parseExpPart_sign_cons {e s : Char} (he : (e = 'e' || e = 'E') = true)
    (hs : (s = '+' || s = '-') = true) (c : Char) (l : List Char) :
    parseExpPart (e :: s :: c :: l) =
      if c.isDigit then (e :: s :: c :: (scanDigits l).1, (scanDigits l).2)
      else ([], e :: s :: c :: l) := by
  rw [parseExpPart_two, if_pos he, if_pos hs]

/-- Shape of the exponent matcher's output. -/
theorem parseExpPart_inv (l : List Char) :
    ((parseExpPart l).1 = [] ∧ (parseExpPart l).2 = l) ∨
    (l = (parseExpPart l).1 ++ (parseExpPart l).2 ∧
      ((parseExpPart l).2 = [] ∨
        ∃ y r, (parseExpPart l).2 = y :: r ∧ y.isDigit = false) ∧
      ((∃ e s c ds, (parseExpPart l).1 = e :: s :: c :: ds ∧
         (e = 'e' || e = 'E') = true ∧ (s = '+' || s = '-') = true ∧
         c.isDigit = true ∧ ∀ x ∈ ds, x.isDigit = true) ∨
       (∃ e s ds, (parseExpPart l).1 = e :: s :: ds ∧
         (e = 'e' || e = 'E') = true ∧ s.isDigit = true ∧
         ∀ x ∈ ds, x.isDigit = true))) := by
  rcases l with _ | ⟨e, l⟩
  · exact Or.inl ⟨rfl, rfl⟩
  rcases l with _ | ⟨s, l⟩
  · rw [parseExpPart_single]
    exact Or.inl ⟨rfl, rfl⟩
  by_cases he : (e = 'e' || e = 'E') = true
  · by_cases hs : (s = '+' || s = '-') = true
    · rcases l with _ | ⟨c, l⟩
      · have heq : parseExpPart [e, s] = ([], [e, s]) := by
          rw [parseExpPart_two, if_pos he, if_pos hs]
        rw [heq]
        exact Or.inl ⟨rfl, rfl⟩
      cases hcd : c.isDigit with
      | true =>
        have heq : parseExpPart (e :: s :: c :: l) =
            (e :: s :: c :: (scanDigits l).1, (scanDigits l).2) := by
          rw [parseExpPart_sign_cons he hs, if_pos hcd]
        rw [heq]
        obtain ⟨h1, h2, h3⟩ := scanDigits_inv l
        refine Or.inr ⟨?_, h3, Or.inl ⟨e, s, c, (scanDigits l).1, rfl, he, hs, hcd, h2⟩⟩
        simpa using congrArg (fun x => e :: s :: c :: x) h1
      | false =>
        have heq : parseExpPart (e :: s :: c :: l) = ([], e :: s :: c :: l) := by
          rw [parseExpPart_sign_cons he hs, if_neg (by simp [hcd])]
        rw [heq]
        exact Or.inl ⟨rfl, rfl⟩
    · cases hsd : s.isDigit with
      | true =>
        have heq : parseExpPart (e :: s :: l) =
            (e :: s :: (scanDigits l).1, (scanDigits l).2) := by
          rw [parseExpPart_two, if_pos he, if_neg hs, if_pos hsd]
        rw [heq]
        obtain ⟨h1, h2, h3⟩ := scanDigits_inv l
        refine Or.inr ⟨?_, h3, Or.inr ⟨e, s, (scanDigits l).1, rfl, he, hsd, h2⟩⟩
        simpa using congrArg (fun x => e :: s :: x) h1
      | false =>
        have heq : parseExpPart (e :: s :: l) = ([], e :: s :: l) := by
          rw [parseExpPart_two, if_pos he, if_neg hs, if_neg (by simp [hsd])]
        rw [heq]
        exact Or.inl ⟨rfl, rfl⟩
  · have heq : parseExpPart (e :: s :: l) = ([], e :: s :: l) := by
      rw [parseExpPart_two, if_neg he]
    rw [heq]
    exact Or.inl ⟨rfl, rfl⟩

theorem parseIntPart_cons (c : Char) (r : List Char) :
    parseIntPart (c :: r) =
      if c = '0' then some (['0'], r)
      else if c.isDigit then some (c :: (scanDigits r).1, (scanDigits r).2)
      else none := rfl

/-- Shape of the integer-part matcher on success. -/
theorem parseIntPart_inv {l ip t : List Char} (h : parseIntPart l = some (ip, t)) :
    l = ip ++ t ∧
    ((ip = ['0']) ∨
     (∃ c ds, ip = c :: ds ∧ ¬ c = '0' ∧ c.isDigit = true ∧
       (∀ x ∈ ds, x.isDigit = true) ∧
       (t = [] ∨ ∃ y r, t = y :: r ∧ y.isDigit = false))) := by
  rcases l with _ | ⟨c, r⟩
  · simp [parseIntPart] at h
  rw [parseIntPart_cons] at h
  by_cases hc : c = '0'
  · rw [if_pos hc] at h
    obtain ⟨h1, h2⟩ := Prod.mk.injEq .. ▸ Option.some.inj h
    subst h1
    subst h2
    subst hc
    exact ⟨rfl, Or.inl rfl⟩
  · rw [if_neg hc] at h
    by_cases hd : c.isDigit = true
    · rw [if_pos hd] at h
      obtain ⟨h1, h2⟩ := Prod.mk.injEq .. ▸ Option.some.inj h
      subst h1
      subst h2
      obtain ⟨s1, s2, s3⟩ := scanDigits_inv r
      exact ⟨by simpa using congrArg (c :: ·) s1,
        Or.inr ⟨c, (scanDigits r).1, rfl, hc, hd, s2, s3⟩⟩
    · rw [if_neg hd] at h
      exact absurd h (by simp)

theorem parseIntPart_build_zero (X : List Char) :
    parseIntPart ('0' :: X) = some (['0'], X) := by
  rw [parseIntPart_cons, if_pos rfl]

theorem parseIntPart_build_digits {c : Char} {ds X : List Char} (hc0 : ¬ c = '0')
    (hc : c.isDigit = true) (hds : ∀ x ∈ ds, x.isDigit = true)
    (hX : X = [] ∨ ∃ y r, X = y :: r ∧ y.isDigit = false) :
    parseIntPart ((c :: ds) ++ X) = some (c :: ds, X) := by
  show parseIntPart (c :: (ds ++ X)) = _
  rw [parseIntPart_cons, if_neg hc0, if_pos hc, scanDigits_build hds hX]

theorem isDigit_of_eE {e : Char} (he : (e = 'e' || e = 'E') = true) :
    e.isDigit = false := by
  rcases Bool.or_eq_true_iff.mp he with h | h <;>
  · have h2 := of_decide_eq_true h
    subst h2
    decide

/-- A prefix of a list with the non-digit-head boundary property keeps it. -/
theorem boundary_cut {t Y Z : List Char}
    (hb : t = [] ∨ ∃ y r, t = y :: r ∧ y.isDigit = false) (ht : t = Y ++ Z) :
    Y = [] ∨ ∃ y r, Y = y :: r ∧ y.isDigit = false := by
  rcases Y with _ | ⟨y, Y⟩
  · exact Or.inl rfl
  right
  rcases hb with h | ⟨y2, r2, h2, hd⟩
  · rw [ht] at h
    simp at h
  · have h3 : y :: (Y ++ Z) = y2 :: r2 := by
      rw [← List.cons_append, ← ht]
      exact h2
    have h4 : y = y2 := by injection h3
    exact ⟨y, Y, rfl, h4 ▸ hd⟩

/-- Master decomposition of a number parse: the input is the three matched
parts followed by the rest, and the three matchers replay identically when
the rest is truncated to any of its prefixes. -/
theorem parseNumParts_master {n ip t fp frest ep rest : List Char}
    (hip : parseIntPart n = some (ip, t))
    (hfp : parseFracPart t = (fp, frest))
    (hep : parseExpPart frest = (ep, rest)) :
    n = (ip ++ fp ++ ep) ++ rest ∧
    ∀ Y Z, rest = Y ++ Z →
      parseIntPart ((ip ++ fp ++ ep) ++ Y) = some (ip, fp ++ ep ++ Y) ∧
      parseFracPart (fp ++ (ep ++ Y)) = (fp, ep ++ Y) ∧
      parseExpPart (ep ++ Y) = (ep, Y) := by
  obtain ⟨hsplit, hshape⟩ := parseIntPart_inv hip
  have hfinv := parseFracPart_inv t
  rw [hfp] at hfinv
  simp only at hfinv
  have heinv := parseExpPart_inv frest
  rw [hep] at heinv
  simp only at heinv
  have hIntRe : ∀ X, (X = [] ∨ ∃ y r2, X = y :: r2 ∧ y.isDigit = false) →
      parseIntPart (ip ++ X) = some (ip, X) := by
    intro X hX
    rcases hshape with h0 | ⟨c, ds, hipeq, hc0, hc, hds, _⟩
    · subst h0
      exact parseIntPart_build_zero X
    · subst hipeq
      exact parseIntPart_build_digits hc0 hc hds hX
  have hIntRe0 : ip = ['0'] → ∀ X, parseIntPart (ip ++ X) = some (ip, X) := by
    intro h0 X
    subst h0
    exact parseIntPart_build_zero X
  have hIntAny : ∀ X, (X = [] ∨ ∃ y r2, X = y :: r2 ∧ y.isDigit = false) ∨ ip = ['0'] →
      parseIntPart (ip ++ X) = some (ip, X) := by
    intro X hX
    rcases hX with hb | h0
    · exact hIntRe X hb
    · exact hIntRe0 h0 X
  rcases hfinv with ⟨hf1, hf2⟩ | ⟨c, ds, hfpeq, hc, hds, hfsplit, hfbound⟩
  · -- no fraction part
    subst hf1
    have hfpt : parseFracPart t = ([], t) := by rw [hfp, hf2]
    rcases heinv with ⟨he1, he2⟩ | ⟨hesplit, hebound, heshape⟩
    · -- no exponent part
      subst he1
      have hrt : rest = t := he2.trans hf2
      have hept : parseExpPart t = ([], t) := by
        rw [← hf2, hep, he2]
      constructor
      · rw [hrt]
        simpa using hsplit
      · intro Y Z hYZ
        have hYZt : t = Y ++ Z := by rw [← hrt]; exact hYZ
        refine ⟨?_, ?_, ?_⟩
        · simp only [List.append_nil, List.nil_append]
          rcases hshape with h0 | ⟨c, ds, hipeq, hc0, hc, hds, htb⟩
          · exact hIntRe0 h0 Y
          · exact hIntRe Y (boundary_cut htb hYZt)
        · simp only [List.nil_append]
          exact parseFracPart_none_prefix (Y := Y) (Z := Z) (by rw [← hYZt]; exact hfpt)
        · simp only [List.nil_append]
          exact parseExpPart_none_prefix (Y := Y) (Z := Z) (by rw [← hYZt]; exact hept)
    · -- exponent part present
      have hts : t = ep ++ rest := by rw [← hf2]; exact hesplit
      constructor
      · rw [hsplit, hts]
        simp
      · intro Y Z hYZ
        have hYb := boundary_cut hebound hYZ
        have hepb : ep ++ Y = [] ∨ ∃ y r2, ep ++ Y = y :: r2 ∧ y.isDigit = false := by
          rcases heshape with ⟨e, s, c2, ds2, hepeq, he, _, _, _⟩ |
              ⟨e, s, ds2, hepeq, he, _, _⟩ <;>
          · subst hepeq
            exact Or.inr ⟨e, _, rfl, isDigit_of_eE he⟩
        refine ⟨?_, ?_, ?_⟩
        · simp only [List.append_nil, List.nil_append]
          rw [List.append_assoc]
          exact hIntRe (ep ++ Y) hepb
        · simp only [List.nil_append]
          refine parseFracPart_none_prefix (Y := ep ++ Y) (Z := Z) ?_
          rw [show (ep ++ Y) ++ Z = ep ++ (Y ++ Z) by simp, ← hYZ, ← hts]
          exact hfpt
        · rcases heshape with ⟨e, s, c2, ds2, hepeq, he, hs, hc2, hds2⟩ |
              ⟨e, s, ds2, hepeq, he, hsd, hds2⟩
          · subst hepeq
            rw [show (e :: s :: c2 :: ds2) ++ Y = e :: s :: c2 :: (ds2 ++ Y) by simp]
            exact parseExpPart_build_sign he hs hc2 hds2 hYb
          · subst hepeq
            rw [show (e :: s :: ds2) ++ Y = e :: s :: (ds2 ++ Y) by simp]
            exact parseExpPart_build_nosign he hsd hds2 hYb
  · -- fraction part present
    rcases heinv with ⟨he1, he2⟩ | ⟨hesplit, hebound, heshape⟩
    · -- no exponent part
      subst he1
      have hrf : rest = frest := he2
      have hept : parseExpPart frest = ([], frest) := by rw [hep, hrf]
      constructor
      · rw [hsplit, hfsplit, hrf]
        simp
      · intro Y Z hYZ
        have hYZf : frest = Y ++ Z := by rw [← hrf]; exact hYZ
        have hYb := boundary_cut hfbound hYZf
        have hfpb : fp ++ ([] ++ Y) = [] ∨
            ∃ y r2, fp ++ ([] ++ Y) = y :: r2 ∧ y.isDigit = false := by
          rw [hfpeq]
          exact Or.inr ⟨'.', _, rfl, by decide⟩
        refine ⟨?_, ?_, ?_⟩
        · rw [show (ip ++ fp ++ []) ++ Y = ip ++ (fp ++ ([] ++ Y)) by simp]
          rw [show fp ++ [] ++ Y = fp ++ ([] ++ Y) by simp]
          exact hIntRe _ hfpb
        · rw [hfpeq]
          rw [show ('.' :: c :: ds) ++ ([] ++ Y) = '.' :: c :: (ds ++ Y) by simp]
          rw [parseFracPart_build hc hds hYb]
          simp
        · simp only [List.nil_append]
          exact parseExpPart_none_prefix (Y := Y) (Z := Z) (by rw [← hYZf]; exact hept)
    · -- both present
      constructor
      · rw [hsplit, hfsplit, hesplit]
        simp
      · intro Y Z hYZ
        have hYb := boundary_cut hebound hYZ
        have hepb : ep ++ Y = [] ∨ ∃ y r2, ep ++ Y = y :: r2 ∧ y.isDigit = false := by
          rcases heshape with ⟨e, s, c2, ds2, hepeq, he, _, _, _⟩ |
              ⟨e, s, ds2, hepeq, he, _, _⟩ <;>
          · subst hepeq
            exact Or.inr ⟨e, _, rfl, isDigit_of_eE he⟩
        have hfpb : fp ++ (ep ++ Y) = [] ∨
            ∃ y r2, fp ++ (ep ++ Y) = y :: r2 ∧ y.isDigit = false := by
          rw [hfpeq]
          exact Or.inr ⟨'.', _, rfl, by decide⟩
        refine ⟨?_, ?_, ?_⟩
        · rw [show (ip ++ fp ++ ep) ++ Y = ip ++ (fp ++ (ep ++ Y)) by simp]
          rw [show fp ++ ep ++ Y = fp ++ (ep ++ Y) by simp]
          exact hIntRe _ hfpb
        · rw [hfpeq]
          rw [show ('.' :: c :: ds) ++ (ep ++ Y) = '.' :: c :: (ds ++ (ep ++ Y)) by simp]
          exact parseFracPart_build hc hds hepb
        · rcases heshape with ⟨e, s, c2, ds2, hepeq, he, hs, hc2, hds2⟩ |
              ⟨e, s, ds2, hepeq, he, hsd, hds2⟩
          · subst hepeq
            rw [show (e :: s :: c2 :: ds2) ++ Y = e :: s :: c2 :: (ds2 ++ Y) by simp]
            exact parseExpPart_build_sign he hs hc2 hds2 hYb
          · subst hepeq
            rw [show (e :: s :: ds2) ++ Y = e :: s :: (ds2 ++ Y) by simp]
            exact parseExpPart_build_nosign he hsd hds2 hYb

theorem parseNum_neg (r : List Char) :
    parseNum ('-' :: r) =
      match parseIntPart r with
      | some (ip, t) =>
        some (Json.num (String.mk (('-' :: ip) ++ (parseFracPart t).1 ++
          (parseExpPart (parseFracPart t).2).1)), (parseExpPart (parseFracPart t).2).2)
      | none => none := rfl

theorem parseNum_not_neg {c : Char} (hc : ¬ c = '-') (l : List Char) :
    parseNum (c :: l) =
      match parseIntPart (c :: l) with
      | some (ip, t) =>
        some (Json.num (String.mk (ip ++ (parseFracPart t).1 ++
          (parseExpPart (parseFracPart t).2).1)), (parseExpPart (parseFracPart t).2).2)
      | none => none := by
  unfold parseNum
  split
  · rename_i r heq
    injection heq with h1 _
    exact absurd h1 hc
  · rfl

/-- A digit (or `'0'`) is not `'-'`. -/
theorem intHead_ne_neg {ip : List Char}
    (hshape : ip = ['0'] ∨ ∃ c ds, ip = c :: ds ∧ ¬ c = '0' ∧ c.isDigit = true ∧
      (∀ x ∈ ds, x.isDigit = true) ∧ True) :
    ∃ c ds, ip = c :: ds ∧ ¬ c = '-' := by
  rcases hshape with h0 | ⟨c, ds, hipeq, _, hc, _, _⟩
  · exact ⟨'0', [], h0, by decide⟩
  · refine ⟨c, ds, hipeq, ?_⟩
    intro hcon
    subst hcon
    exact absurd hc (by decide)

/-- Master decomposition for `parseNum`: the consumed lexeme region, and
replay of the parse on that region followed by any prefix of the rest. -/
theorem parseNum_master {l : List Char} {j : Json} {r : List Char}
    (h : parseNum l = some (j, r)) :
    ∃ cc, l = cc ++ r ∧ cc ≠ [] ∧
      ∀ Y Z, r = Y ++ Z → parseNum (cc ++ Y) = some (j, Y) := by
  rcases l with _ | ⟨c0, l0⟩
  · exact absurd h (by simp [parseNum, parseIntPart])
  by_cases hneg : c0 = '-'
  · subst hneg
    rw [parseNum_neg] at h
    rcases hip : parseIntPart l0 with _ | ⟨ip, t⟩
    · rw [hip] at h
      exact absurd h (by simp)
    rw [hip] at h
    rcases hfp : parseFracPart t with ⟨fp, frest⟩
    rcases hep : parseExpPart frest with ⟨ep, rest⟩
    simp only [hfp, hep] at h
    obtain ⟨hsplit0, hshape0⟩ := parseIntPart_inv hip
    obtain ⟨hn, hrep⟩ := parseNumParts_master hip hfp hep
    obtain ⟨hj, hr⟩ := Prod.mk.injEq .. ▸ Option.some.inj h
    refine ⟨'-' :: (ip ++ fp ++ ep), ?_, by simp, ?_⟩
    · rw [← hr, show ('-' :: (ip ++ fp ++ ep)) ++ rest =
        '-' :: ((ip ++ fp ++ ep) ++ rest) by simp, ← hn]
    · intro Y Z hYZ
      obtain ⟨h1, h2, h3⟩ := hrep Y Z (by rw [hr]; exact hYZ)
      rw [show ('-' :: (ip ++ fp ++ ep)) ++ Y = '-' :: ((ip ++ fp ++ ep) ++ Y) by simp]
      rw [parseNum_neg, h1]
      have h2' : parseFracPart (fp ++ ep ++ Y) = (fp, ep ++ Y) := by
        rw [List.append_assoc]
        exact h2
      simp only [h2', h3]
      rw [← hj]
  · rw [parseNum_not_neg hneg] at h
    rcases hip : parseIntPart (c0 :: l0) with _ | ⟨ip, t⟩
    · rw [hip] at h
      exact absurd h (by simp)
    rw [hip] at h
    rcases hfp : parseFracPart t with ⟨fp, frest⟩
    rcases hep : parseExpPart frest with ⟨ep, rest⟩
    simp only [hfp, hep] at h
    obtain ⟨hsplit0, hshape0⟩ := parseIntPart_inv hip
    obtain ⟨hn, hrep⟩ := parseNumParts_master hip hfp hep
    obtain ⟨hj, hr⟩ := Prod.mk.injEq .. ▸ Option.some.inj h
    refine ⟨ip ++ fp ++ ep, ?_, ?_, ?_⟩
    · rw [← hr, ← hn]
    · obtain ⟨ch, ds, hipeq, _⟩ := intHead_ne_neg (by
        rcases hshape0 with h0 | ⟨c, ds, h1, h2, h3, h4, _⟩
        · exact Or.inl h0
        · exact Or.inr ⟨c, ds, h1, h2, h3, h4, trivial⟩)
      rw [hipeq]
      simp
    · intro Y Z hYZ
      obtain ⟨h1, h2, h3⟩ := hrep Y Z (by rw [hr]; exact hYZ)
      obtain ⟨ch, ds, hipeq, hchneg⟩ := intHead_ne_neg (by
        rcases hshape0 with h0 | ⟨c, ds, hh1, hh2, hh3, hh4, _⟩
        · exact Or.inl h0
        · exact Or.inr ⟨c, ds, hh1, hh2, hh3, hh4, trivial⟩)
      have hfirst : (ip ++ fp ++ ep) ++ Y = ch :: ((ds ++ fp ++ ep) ++ Y) := by
        rw [hipeq]
        simp
      rw [hfirst, parseNum_not_neg hchneg, show ch :: ((ds ++ fp ++ ep) ++ Y) =
        (ip ++ fp ++ ep) ++ Y by rw [hipeq]; simp, h1]
      have h2' : parseFracPart (fp ++ ep ++ Y) = (fp, ep ++ Y) := by
        rw [List.append_assoc]
        exact h2
      simp only [h2', h3]
      rw [← hj]

theorem parseStrRest_cons (c : Char) (r : List Char) :
    parseStrRest (c :: r) =
      (if c = '"' then some ([], r)
       else if c = '\\' then
         match r with
         | [] => none
         | e :: r2 =>
           if e = 'u' then
             match r2 with
             | h1 :: h2 :: h3 :: h4 :: r3 =>
               match hexVal h1, hexVal h2, hexVal h3, hexVal h4 with
               | some a, some b, some c2, some d =>
                 match parseStrRest r3 with
                 | some (s, t) => some (Char.ofNat (((a * 16 + b) * 16 + c2) * 16 + d) :: s, t)
                 | none => none
               | _, _, _, _ => none
             | _ => none
           else
             match escChar e with
             | some ec =>
               match parseStrRest r2 with
               | some (s, t) => some (ec :: s, t)
               | none => none
             | none => none
       else if c.toNat < 32 then none
       else
         match parseStrRest r with
         | some (s, t) => some (c :: s, t)
         | none => none) := by
  conv_lhs => rw [parseStrRest.eq_def]

theorem parseStrRest_quote (r : List Char) : parseStrRest ('"' :: r) = some ([], r) := by
  rw [parseStrRest_cons, if_pos rfl]

theorem parseStrRest_backslash (e : Char) (r2 : List Char) :
    parseStrRest ('\\' :: e :: r2) =
      (if e = 'u' then
        match r2 with
        | h1 :: h2 :: h3 :: h4 :: r3 =>
          match hexVal h1, hexVal h2, hexVal h3, hexVal h4 with
          | some a, some b, some c2, some d =>
            match parseStrRest r3 with
            | some (s, t) => some (Char.ofNat (((a * 16 + b) * 16 + c2) * 16 + d) :: s, t)
            | none => none
          | _, _, _, _ => none
        | _ => none
      else
        match escChar e with
        | some ec =>
          match parseStrRest r2 with
          | some (s, t) => some (ec :: s, t)
          | none => none
        | none => none) := by
  rw [parseStrRest_cons, if_neg (by decide), if_pos rfl]

theorem parseStrRest_plain {c : Char} (hq : ¬ c = '"') (hbs : ¬ c = '\\')
    (hctl : ¬ c.toNat < 32) (r : List Char) :
    parseStrRest (c :: r) =
      match parseStrRest r with
      | some (s, t) => some (c :: s, t)
      | none => none := by
  rw [parseStrRest_cons, if_neg hq, if_neg hbs, if_neg hctl]

/-- Master decomposition for `parseStrRest`: the consumed region `cc` (which
ends with the closing quote, hence is nonempty), and replay of the parse on
`cc` followed by ANY continuation. -/
theorem parseStrRest_master_aux :
    ∀ n : Nat, ∀ l : List Char, l.length < n → ∀ k t : List Char,
      parseStrRest l = some (k, t) →
      ∃ cc, l = cc ++ t ∧ cc ≠ [] ∧ ∀ X, parseStrRest (cc ++ X) = some (k, X) := by
  intro n
  induction n with
  | zero => intro l hl; exact absurd hl (Nat.not_lt_zero _)
  | succ n ih =>
    intro l hl k t h
    rcases l with _ | ⟨c, r⟩
    · exact absurd h (by rw [show parseStrRest [] = none from rfl]; simp)
    by_cases hq : c = '"'
    · subst hq
      rw [parseStrRest_quote] at h
      obtain ⟨hk, ht⟩ := Prod.mk.injEq .. ▸ Option.some.inj h
      refine ⟨['"'], ?_, by simp, ?_⟩
      · rw [← ht]
        rfl
      · intro X
        rw [show (['"'] : List Char) ++ X = '"' :: X from rfl, parseStrRest_quote, hk]
    by_cases hbs : c = '\\'
    · subst hbs
      rcases r with _ | ⟨e, r2⟩
      · exact absurd h (by rw [parseStrRest_cons, if_neg (by decide), if_pos rfl]; simp)
      rw [parseStrRest_backslash] at h
      by_cases hu : e = 'u'
      · subst hu
        rw [if_pos rfl] at h
        rcases r2 with _ | ⟨g1, _ | ⟨g2, _ | ⟨g3, _ | ⟨g4, r3⟩⟩⟩⟩
        · exact absurd h (by simp)
        · exact absurd h (by simp)
        · exact absurd h (by simp)
        · exact absurd h (by simp)
        have h2 : (match hexVal g1, hexVal g2, hexVal g3, hexVal g4 with
          | some a, some b, some c2, some d =>
            (match parseStrRest r3 with
             | some (s, u) => some (Char.ofNat (((a * 16 + b) * 16 + c2) * 16 + d) :: s, u)
             | none => none)
          | _, _, _, _ => none) = some (k, t) := h
        rcases ha : hexVal g1 with _ | a
        · rw [ha] at h2; exact absurd h2 (by simp)
        rcases hb : hexVal g2 with _ | b
        · rw [ha, hb] at h2; exact absurd h2 (by simp)
        rcases hc : hexVal g3 with _ | c2
        · rw [ha, hb, hc] at h2; exact absurd h2 (by simp)
        rcases hd : hexVal g4 with _ | d
        · rw [ha, hb, hc, hd] at h2; exact absurd h2 (by simp)
        rw [ha, hb, hc, hd] at h2
        have h3 : (match parseStrRest r3 with
          | some (s, u) => some (Char.ofNat (((a * 16 + b) * 16 + c2) * 16 + d) :: s, u)
          | none => none) = some (k, t) := h2
        rcases hrec : parseStrRest r3 with _ | ⟨s, u⟩
        · rw [hrec] at h3; exact absurd h3 (by simp)
        rw [hrec] at h3
        have h4 : some (Char.ofNat (((a * 16 + b) * 16 + c2) * 16 + d) :: s, u) =
          some (k, t) := h3
        obtain ⟨hk, ht⟩ := Prod.mk.injEq .. ▸ Option.some.inj h4
        have hlen : r3.length < n := by
          simp only [List.length_cons] at hl
          omega
        obtain ⟨cc, hcc1, hcc2, hcc3⟩ := ih r3 hlen s u hrec
        refine ⟨'\\' :: 'u' :: g1 :: g2 :: g3 :: g4 :: cc, ?_, by simp, ?_⟩
        · rw [show ('\\' :: 'u' :: g1 :: g2 :: g3 :: g4 :: cc) ++ t =
            '\\' :: 'u' :: g1 :: g2 :: g3 :: g4 :: (cc ++ t) by simp, ← ht, ← hcc1]
        · intro X
          rw [show ('\\' :: 'u' :: g1 :: g2 :: g3 :: g4 :: cc) ++ X =
            '\\' :: 'u' :: g1 :: g2 :: g3 :: g4 :: (cc ++ X) by simp]
          rw [parseStrRest_backslash, if_pos rfl]
          have e1 : (match hexVal g1, hexVal g2, hexVal g3, hexVal g4 with
            | some a, some b, some c2, some d =>
              (match parseStrRest (cc ++ X) with
               | some (s, u) => some (Char.ofNat (((a * 16 + b) * 16 + c2) * 16 + d) :: s, u)
               | none => none)
            | _, _, _, _ => none) = some (k, X) := by
            rw [ha, hb, hc, hd]
            have e2 : (match parseStrRest (cc ++ X) with
              | some (s, u) => some (Char.ofNat (((a * 16 + b) * 16 + c2) * 16 + d) :: s, u)
              | none => none) = some (k, X) := by
              rw [hcc3 X]
              have e3 : some (Char.ofNat (((a * 16 + b) * 16 + c2) * 16 + d) :: s, X) =
                some (k, X) := by rw [hk]
              exact e3
            exact e2
          exact e1
      · rw [if_neg hu] at h
        rcases he : escChar e with _ | ec
        · rw [he] at h; exact absurd h (by simp)
        rw [he] at h
        have h2 : (match parseStrRest r2 with
          | some (s, u) => some (ec :: s, u)
          | none => none) = some (k, t) := h
        rcases hrec : parseStrRest r2 with _ | ⟨s, u⟩
        · rw [hrec] at h2; exact absurd h2 (by simp)
        rw [hrec] at h2
        have h3 : some (ec :: s, u) = some (k, t) := h2
        obtain ⟨hk, ht⟩ := Prod.mk.injEq .. ▸ Option.some.inj h3
        have hlen : r2.length < n := by
          simp only [List.length_cons] at hl
          omega
        obtain ⟨cc, hcc1, hcc2, hcc3⟩ := ih r2 hlen s u hrec
        refine ⟨'\\' :: e :: cc, ?_, by simp, ?_⟩
        · rw [show ('\\' :: e :: cc) ++ t = '\\' :: e :: (cc ++ t) by simp, ← ht, ← hcc1]
        · intro X
          rw [show ('\\' :: e :: cc) ++ X = '\\' :: e :: (cc ++ X) by simp]
          rw [parseStrRest_backslash, if_neg hu, he]
          have e2 : (match parseStrRest (cc ++ X) with
            | some (s, u) => some (ec :: s, u)
            | none => none) = some (k, X) := by
            rw [hcc3 X]
            have e3 : some (ec :: s, X) = some (k, X) := by rw [hk]
            exact e3
          exact e2
    by_cases hctl : c.toNat < 32
    · rw [parseStrRest_cons, if_neg hq, if_neg hbs, if_pos hctl] at h
      exact absurd h (by simp)
    rw [parseStrRest_plain hq hbs hctl] at h
    rcases hrec : parseStrRest r with _ | ⟨s, u⟩
    · rw [hrec] at h; exact absurd h (by simp)
    rw [hrec] at h
    have h2 : some (c :: s, u) = some (k, t) := h
    obtain ⟨hk, ht⟩ := Prod.mk.injEq .. ▸ Option.some.inj h2
    have hlen : r.length < n := by
      simp only [List.length_cons] at hl
      omega
    obtain ⟨cc, hcc1, hcc2, hcc3⟩ := ih r hlen s u hrec
    refine ⟨c :: cc, ?_, by simp, ?_⟩
    · rw [show (c :: cc) ++ t = c :: (cc ++ t) by simp, ← ht, ← hcc1]
    · intro X
      rw [show (c :: cc) ++ X = c :: (cc ++ X) by simp]
      rw [parseStrRest_plain hq hbs hctl, hcc3 X]
      have e3 : some (c :: s, X) = some (k, X) := by rw [hk]
      exact e3

theorem parseStrRest_master {l k t : List Char} (h : parseStrRest l = some (k, t)) :
    ∃ cc, l = cc ++ t ∧ cc ≠ [] ∧ ∀ X, parseStrRest (cc ++ X) = some (k, X) :=
  parseStrRest_master_aux (l.length + 1) l (Nat.lt_succ_self _) k t h

theorem skipWs_head_not_ws :
    ∀ {l : List Char} {c : Char} {r : List Char}, skipWs l = c :: r → jsonWs c = false := by
  intro l
  induction l with
  | nil => intro c r h; exact absurd h (by simp [skipWs])
  | cons d l2 ih =>
    intro c r h
    rcases hd : jsonWs d with _ | _
    · rw [show skipWs (d :: l2) = d :: l2 from by simp [skipWs, hd]] at h
      obtain ⟨h1, _⟩ := List.cons.injEq .. ▸ h
      rw [← h1]
      exact hd
    · rw [show skipWs (d :: l2) = skipWs l2 from by simp [skipWs, hd]] at h
      exact ih h

/-- Recompose `skipWs` after swapping the tail beyond the first non-blank. -/
theorem skipWs_replay {w : List Char} (hw : ∀ c ∈ w, jsonWs c = true)
    {c : Char} (hc : jsonWs c = false) (m : List Char) :
    skipWs (w ++ c :: m) = c :: m := by
  rw [skipWs_append_ws hw, skipWs_not_ws hc]

theorem parseNum_isNum {l : List Char} {j : Json} {t : List Char}
    (h : parseNum l = some (j, t)) : ∃ lex, j = Json.num lex := by
  rcases l with _ | ⟨c, r⟩
  · exact absurd h (by rw [show parseNum [] = none from rfl]; simp)
  by_cases hc : c = '-'
  · subst hc
    rw [parseNum_neg] at h
    rcases hip : parseIntPart r with _ | ⟨ip, t0⟩
    · rw [hip] at h; exact absurd h (by simp)
    · rw [hip] at h
      have h2 : some (Json.num (String.mk (('-' :: ip) ++ (parseFracPart t0).1 ++
          (parseExpPart (parseFracPart t0).2).1)), (parseExpPart (parseFracPart t0).2).2) =
          some (j, t) := h
      exact ⟨_, ((Prod.mk.injEq .. ▸ Option.some.inj h2).1).symm⟩
  · rw [parseNum_not_neg hc] at h
    rcases hip : parseIntPart (c :: r) with _ | ⟨ip, t0⟩
    · rw [hip] at h; exact absurd h (by simp)
    · rw [hip] at h
      have h2 : some (Json.num (String.mk (ip ++ (parseFracPart t0).1 ++
          (parseExpPart (parseFracPart t0).2).1)), (parseExpPart (parseFracPart t0).2).2) =
          some (j, t) := h
      exact ⟨_, ((Prod.mk.injEq .. ▸ Option.some.inj h2).1).symm⟩

/-- The closing token each production's consumed region ends with. -/
def tokEnd : PTask → List Char → Prop
  | PTask.val, _ => True
  | PTask.mems, cc => ∃ cc0, cc = cc0 ++ ['}']
  | PTask.memsMore, cc => ∃ cc0, cc = cc0 ++ ['}']
  | PTask.elems, cc => ∃ cc0, cc = cc0 ++ [']']
  | PTask.elemsMore, cc => ∃ cc0, cc = cc0 ++ [']']

theorem parseCore_val (f : Nat) (l : List Char) :
    parseCore (Nat.succ f) PTask.val l =
      (match skipWs l with
       | [] => none
       | c :: r =>
         if c = '{' then
           match parseCore f PTask.mems r with
           | some (PRes.ms ms, t) => some (PRes.v (Json.obj ms), t)
           | _ => none
         else if c = '[' then
           match parseCore f PTask.elems r with
           | some (PRes.xs xs, t) => some (PRes.v (Json.arr xs), t)
           | _ => none
         else if c = '"' then
           match parseStrRest r with
           | some (s, t) => some (PRes.v (Json.str (String.mk s)), t)
           | none => none
         else if c = 't' then
           if beginsWith "rue".toList r then some (PRes.v (Json.bool true), r.drop 3) else none
         else if c = 'f' then
           if beginsWith "alse".toList r then some (PRes.v (Json.bool false), r.drop 4) else none
         else if c = 'n' then
           if beginsWith "ull".toList r then some (PRes.v Json.null, r.drop 3) else none
         else if c = 'N' then
           if beginsWith "aN".toList r then some (PRes.v (Json.num "NaN"), r.drop 2) else none
         else if c = 'I' then
           if beginsWith "nfinity".toList r then
             some (PRes.v (Json.num "Infinity"), r.drop 7)
           else none
         else if c = '-' then
           if beginsWith "Infinity".toList r then
             some (PRes.v (Json.num "-Infinity"), r.drop 8)
           else
             match parseNum (c :: r) with
             | some (j, t) => some (PRes.v j, t)
             | none => none
         else
           match parseNum (c :: r) with
           | some (j, t) => some (PRes.v j, t)
           | none => none) := rfl

theorem parseCore_mems (f : Nat) (l : List Char) :
    parseCore (Nat.succ f) PTask.mems l =
      (match skipWs l with
       | [] => none
       | c :: r =>
         if c = '}' then some (PRes.ms [], r)
         else if c = '"' then
           match parseStrRest r with
           | some (k, t) =>
             match skipWs t with
             | ':' :: t2 =>
               match parseCore f PTask.val t2 with
               | some (PRes.v v, t3) =>
                 match parseCore f PTask.memsMore t3 with
                 | some (PRes.ms ms, t4) => some (PRes.ms ((String.mk k, v) :: ms), t4)
                 | _ => none
               | _ => none
             | _ => none
           | none => none
         else none) := rfl

theorem parseCore_memsMore (f : Nat) (l : List Char) :
    parseCore (Nat.succ f) PTask.memsMore l =
      (match skipWs l with
       | '}' :: r => some (PRes.ms [], r)
       | ',' :: r =>
         match skipWs r with
         | '"' :: r2 =>
           match parseStrRest r2 with
           | some (k, t) =>
             match skipWs t with
             | ':' :: t2 =>
               match parseCore f PTask.val t2 with
               | some (PRes.v v, t3) =>
                 match parseCore f PTask.memsMore t3 with
                 | some (PRes.ms ms, t4) => some (PRes.ms ((String.mk k, v) :: ms), t4)
                 | _ => none
               | _ => none
             | _ => none
           | none => none
         | _ => none
       | _ => none) := rfl

theorem parseCore_elems (f : Nat) (l : List Char) :
    parseCore (Nat.succ f) PTask.elems l =
      (match skipWs l with
       | ']' :: r => some (PRes.xs [], r)
       | t =>
         match parseCore f PTask.val t with
         | some (PRes.v v, t2) =>
           match parseCore f PTask.elemsMore t2 with
           | some (PRes.xs xs, t3) => some (PRes.xs (v :: xs), t3)
           | _ => none
         | _ => none) := rfl

theorem parseCore_elemsMore (f : Nat) (l : List Char) :
    parseCore (Nat.succ f) PTask.elemsMore l =
      (match skipWs l with
       | ']' :: r => some (PRes.xs [], r)
       | ',' :: r =>
         match parseCore f PTask.val r with
         | some (PRes.v v, t2) =>
           match parseCore f PTask.elemsMore t2 with
           | some (PRes.xs xs, t3) => some (PRes.xs (v :: xs), t3)
           | _ => none
         | _ => none
       | _ => none) := rfl

theorem skipWs_idem (l : List Char) : skipWs (skipWs l) = skipWs l := by
  induction l with
  | nil => rfl
  | cons c r ih =>
    rcases hc : jsonWs c with _ | _
    · rw [skipWs_not_ws hc, skipWs_not_ws hc]
    · rw [show skipWs (c :: r) = skipWs r from by simp [skipWs, hc]]
      exact ih

/-- `parseCore` at `PTask.val` ignores leading whitespace. -/
theorem parseCore_val_ws {W : List Char} (hW : ∀ c ∈ W, jsonWs c = true)
    (f : Nat) (X : List Char) :
    parseCore (Nat.succ f) PTask.val (W ++ X) = parseCore (Nat.succ f) PTask.val X := by
  rw [parseCore_val, parseCore_val, skipWs_append_ws hW]

theorem beginsWith_extend {p l : List Char} (h : beginsWith p l = true) (Z : List Char) :
    beginsWith p (l ++ Z) = true := by
  induction p generalizing l with
  | nil => rfl
  | cons x ps ih =>
    cases l with
    | nil => simp [beginsWith] at h
    | cons c cs =>
      simp only [beginsWith, Bool.and_eq_true, decide_eq_true_eq] at h
      obtain ⟨hx, hb⟩ := h
      simp only [List.cons_append, beginsWith, Bool.and_eq_true, decide_eq_true_eq]
      exact ⟨hx, ih hb⟩

theorem isDigit_ne {c d : Char} (hdig : c.isDigit = true) (hd : d.isDigit = false) :
    ¬ c = d := by
  intro h
  rw [h, hd] at hdig
  exact Bool.false_ne_true hdig

/-- Additional head-character information for a successful `val` region:
it is some whitespace, then a non-blank character that is not `']'`. -/
def headShape : PTask → List Char → Prop
  | PTask.val, cc => ∃ w1 c0 m, cc = w1 ++ c0 :: m ∧ (∀ x ∈ w1, jsonWs x = true) ∧
      jsonWs c0 = false ∧ ¬ c0 = ']'
  | _, _ => True

theorem parseNum_head {c : Char} {r : List Char} {j : Json} {t : List Char}
    (hc : ¬ c = '-') (h : parseNum (c :: r) = some (j, t)) :
    c = '0' ∨ c.isDigit = true := by
  by_cases h0 : c = '0'
  · exact Or.inl h0
  by_cases hd : c.isDigit = true
  · exact Or.inr hd
  exfalso
  rw [parseNum_not_neg hc, parseIntPart_cons, if_neg h0, if_neg hd] at h
  exact absurd h (by simp)

/-- Master decomposition for `parseCore`: a successful parse consumed a
nonempty region `cc` (whose last character is the production's closing
token, and whose head, for a value, is whitespace then a non-`']'`
character), and the parse replays on `cc` followed by any prefix of the
old rest, at any fuel of at least `cc.length + 1`. -/
theorem parseCore_master :
    ∀ f : Nat, ∀ task : PTask, ∀ l : List Char, ∀ res : PRes, ∀ t : List Char,
      parseCore f task l = some (res, t) →
      ∃ cc, l = cc ++ t ∧ cc ≠ [] ∧ tokEnd task cc ∧ headShape task cc ∧
        ∀ Y Z g, t = Y ++ Z → cc.length + 1 ≤ g →
          parseCore g task (cc ++ Y) = some (res, Y) := by
  intro f
  induction f with
  | zero =>
    intro task l res t h
    exact absurd h (by rw [show parseCore 0 task l = none from rfl]; simp)
  | succ f ih =>
    intro task l res t h
    cases task with
    | val =>
      rw [parseCore_val] at h
      obtain ⟨w, hwl, hws⟩ := skipWs_split l
      split at h
      · exact absurd h (by simp)
      rename_i c r hsw
      rw [hsw] at hwl
      have hcns : jsonWs c = false := skipWs_head_not_ws hsw
      by_cases hc1 : c = '{'
      · rw [if_pos hc1] at h
        split at h
        · rename_i ms2 t2 hm
          obtain ⟨hres, ht⟩ := Prod.mk.injEq .. ▸ Option.some.inj h
          obtain ⟨cc, hcc1, hcc2, hccT, hccH, hccR⟩ := ih PTask.mems r (PRes.ms ms2) t2 hm
          refine ⟨w ++ c :: cc, ?_, by simp, trivial,
            ⟨w, c, cc, rfl, hws, hcns, by rw [hc1]; decide⟩, ?_⟩
          · rw [hwl, hcc1, ← ht]; simp
          · intro Y Z g hYZ hg
            rcases g with _ | g2
            · omega
            rw [show (w ++ c :: cc) ++ Y = w ++ c :: (cc ++ Y) by simp]
            rw [parseCore_val g2, skipWs_replay hws hcns]
            subst hc1
            have goal2 : (match parseCore g2 PTask.mems (cc ++ Y) with
              | some (PRes.ms ms, t') => some (PRes.v (Json.obj ms), t')
              | _ => none) = some (res, Y) := by
              rw [hccR Y Z g2 (by rw [ht]; exact hYZ)
                (by simp only [List.length_append, List.length_cons] at hg; omega)]
              have e : some (PRes.v (Json.obj ms2), Y) = some (res, Y) := by rw [hres]
              exact e
            exact goal2
        · exact absurd h (by simp)
      rw [if_neg hc1] at h
      by_cases hc2 : c = '['
      · rw [if_pos hc2] at h
        split at h
        · rename_i xs2 t2 hm
          obtain ⟨hres, ht⟩ := Prod.mk.injEq .. ▸ Option.some.inj h
          obtain ⟨cc, hcc1, hcc2, hccT, hccH, hccR⟩ := ih PTask.elems r (PRes.xs xs2) t2 hm
          refine ⟨w ++ c :: cc, ?_, by simp, trivial,
            ⟨w, c, cc, rfl, hws, hcns, by rw [hc2]; decide⟩, ?_⟩
          · rw [hwl, hcc1, ← ht]; simp
          · intro Y Z g hYZ hg
            rcases g with _ | g2
            · omega
            rw [show (w ++ c :: cc) ++ Y = w ++ c :: (cc ++ Y) by simp]
            rw [parseCore_val g2, skipWs_replay hws hcns]
            subst hc2
            have goal2 : (match parseCore g2 PTask.elems (cc ++ Y) with
              | some (PRes.xs xs, t') => some (PRes.v (Json.arr xs), t')
              | _ => none) = some (res, Y) := by
              rw [hccR Y Z g2 (by rw [ht]; exact hYZ)
                (by simp only [List.length_append, List.length_cons] at hg; omega)]
              have e : some (PRes.v (Json.arr xs2), Y) = some (res, Y) := by rw [hres]
              exact e
            exact goal2
        · exact absurd h (by simp)
      rw [if_neg hc2] at h
      by_cases hc3 : c = '"'
      · rw [if_pos hc3] at h
        split at h
        · rename_i s t2 hsr
          obtain ⟨hres, ht⟩ := Prod.mk.injEq .. ▸ Option.some.inj h
          obtain ⟨ck, hck1, hck2, hckR⟩ := parseStrRest_master hsr
          refine ⟨w ++ c :: ck, ?_, by simp, trivial,
            ⟨w, c, ck, rfl, hws, hcns, by rw [hc3]; decide⟩, ?_⟩
          · rw [hwl, hck1, ← ht]; simp
          · intro Y Z g hYZ hg
            rcases g with _ | g2
            · omega
            rw [show (w ++ c :: ck) ++ Y = w ++ c :: (ck ++ Y) by simp]
            rw [parseCore_val g2, skipWs_replay hws hcns]
            subst hc3
            have goal2 : (match parseStrRest (ck ++ Y) with
              | some (s, t') => some (PRes.v (Json.str (String.mk s)), t')
              | none => none) = some (res, Y) := by
              rw [hckR Y]
              have e : some (PRes.v (Json.str (String.mk s)), Y) = some (res, Y) := by
                rw [hres]
              exact e
            exact goal2
        · exact absurd h (by simp)
      rw [if_neg hc3] at h
      by_cases hc4 : c = 't'
      · rw [if_pos hc4] at h
        rcases hbw : beginsWith "rue".toList r with _ | _
        · rw [hbw, if_neg Bool.false_ne_true] at h
          exact absurd h (by simp)
        rw [hbw, if_pos rfl] at h
        obtain ⟨hres, ht⟩ := Prod.mk.injEq .. ▸ Option.some.inj h
        have hrsplit : r = "rue".toList ++ r.drop 3 := by
          have hh := beginsWith_split hbw
          rw [show ("rue".toList).length = 3 from rfl] at hh
          exact hh
        refine ⟨w ++ c :: "rue".toList, ?_, by simp, trivial,
          ⟨w, c, "rue".toList, rfl, hws, hcns, by rw [hc4]; decide⟩, ?_⟩
        · rw [hwl, ← ht]
          conv_lhs => rw [hrsplit]
          simp
        · intro Y Z g hYZ hg
          rcases g with _ | g2
          · omega
          rw [show (w ++ c :: "rue".toList) ++ Y = w ++ c :: ("rue".toList ++ Y) by simp]
          rw [parseCore_val g2, skipWs_replay hws hcns]
          subst hc4
          have goal2 : (if beginsWith "rue".toList ("rue".toList ++ Y) = true then
              some (PRes.v (Json.bool true), ("rue".toList ++ Y).drop 3)
            else none) = some (res, Y) := by
            rw [if_pos (beginsWith_append _ _)]
            have e : some (PRes.v (Json.bool true), Y) = some (res, Y) := by rw [hres]
            exact e
          exact goal2
      rw [if_neg hc4] at h
      by_cases hc5 : c = 'f'
      · rw [if_pos hc5] at h
        rcases hbw : beginsWith "alse".toList r with _ | _
        · rw [hbw, if_neg Bool.false_ne_true] at h
          exact absurd h (by simp)
        rw [hbw, if_pos rfl] at h
        obtain ⟨hres, ht⟩ := Prod.mk.injEq .. ▸ Option.some.inj h
        have hrsplit : r = "alse".toList ++ r.drop 4 := by
          have hh := beginsWith_split hbw
          rw [show ("alse".toList).length = 4 from rfl] at hh
          exact hh
        refine ⟨w ++ c :: "alse".toList, ?_, by simp, trivial,
          ⟨w, c, "alse".toList, rfl, hws, hcns, by rw [hc5]; decide⟩, ?_⟩
        · rw [hwl, ← ht]
          conv_lhs => rw [hrsplit]
          simp
        · intro Y Z g hYZ hg
          rcases g with _ | g2
          · omega
          rw [show (w ++ c :: "alse".toList) ++ Y = w ++ c :: ("alse".toList ++ Y) by simp]
          rw [parseCore_val g2, skipWs_replay hws hcns]
          subst hc5
          have goal2 : (if beginsWith "alse".toList ("alse".toList ++ Y) = true then
              some (PRes.v (Json.bool false), ("alse".toList ++ Y).drop 4)
            else none) = some (res, Y) := by
            rw [if_pos (beginsWith_append _ _)]
            have e : some (PRes.v (Json.bool false), Y) = some (res, Y) := by rw [hres]
            exact e
          exact goal2
      rw [if_neg hc5] at h
      by_cases hc6 : c = 'n'
      · rw [if_pos hc6] at h
        rcases hbw : beginsWith "ull".toList r with _ | _
        · rw [hbw, if_neg Bool.false_ne_true] at h
          exact absurd h (by simp)
        rw [hbw, if_pos rfl] at h
        obtain ⟨hres, ht⟩ := Prod.mk.injEq .. ▸ Option.some.inj h
        have hrsplit : r = "ull".toList ++ r.drop 3 := by
          have hh := beginsWith_split hbw
          rw [show ("ull".toList).length = 3 from rfl] at hh
          exact hh
        refine ⟨w ++ c :: "ull".toList, ?_, by simp, trivial,
          ⟨w, c, "ull".toList, rfl, hws, hcns, by rw [hc6]; decide⟩, ?_⟩
        · rw [hwl, ← ht]
          conv_lhs => rw [hrsplit]
          simp
        · intro Y Z g hYZ hg
          rcases g with _ | g2
          · omega
          rw [show (w ++ c :: "ull".toList) ++ Y = w ++ c :: ("ull".toList ++ Y) by simp]
          rw [parseCore_val g2, skipWs_replay hws hcns]
          subst hc6
          have goal2 : (if beginsWith "ull".toList ("ull".toList ++ Y) = true then
              some (PRes.v Json.null, ("ull".toList ++ Y).drop 3)
            else none) = some (res, Y) := by
            rw [if_pos (beginsWith_append _ _)]
            have e : some (PRes.v Json.null, Y) = some (res, Y) := by rw [hres]
            exact e
          exact goal2
      rw [if_neg hc6] at h
      by_cases hc7 : c = 'N'
      · rw [if_pos hc7] at h
        rcases hbw : beginsWith "aN".toList r with _ | _
        · rw [hbw, if_neg Bool.false_ne_true] at h
          exact absurd h (by simp)
        rw [hbw, if_pos rfl] at h
        obtain ⟨hres, ht⟩ := Prod.mk.injEq .. ▸ Option.some.inj h
        have hrsplit : r = "aN".toList ++ r.drop 2 := by
          have hh := beginsWith_split hbw
          rw [show ("aN".toList).length = 2 from rfl] at hh
          exact hh
        refine ⟨w ++ c :: "aN".toList, ?_, by simp, trivial,
          ⟨w, c, "aN".toList, rfl, hws, hcns, by rw [hc7]; decide⟩, ?_⟩
        · rw [hwl, ← ht]
          conv_lhs => rw [hrsplit]
          simp
        · intro Y Z g hYZ hg
          rcases g with _ | g2
          · omega
          rw [show (w ++ c :: "aN".toList) ++ Y = w ++ c :: ("aN".toList ++ Y) by simp]
          rw [parseCore_val g2, skipWs_replay hws hcns]
          subst hc7
          have goal2 : (if beginsWith "aN".toList ("aN".toList ++ Y) = true then
              some (PRes.v (Json.num "NaN"), ("aN".toList ++ Y).drop 2)
            else none) = some (res, Y) := by
            rw [if_pos (beginsWith_append _ _)]
            have e : some (PRes.v (Json.num "NaN"), Y) = some (res, Y) := by rw [hres]
            exact e
          exact goal2
      rw [if_neg hc7] at h
      by_cases hc8 : c = 'I'
      · rw [if_pos hc8] at h
        rcases hbw : beginsWith "nfinity".toList r with _ | _
        · rw [hbw, if_neg Bool.false_ne_true] at h
          exact absurd h (by simp)
        rw [hbw, if_pos rfl] at h
        obtain ⟨hres, ht⟩ := Prod.mk.injEq .. ▸ Option.some.inj h
        have hrsplit : r = "nfinity".toList ++ r.drop 7 := by
          have hh := beginsWith_split hbw
          rw [show ("nfinity".toList).length = 7 from rfl] at hh
          exact hh
        refine ⟨w ++ c :: "nfinity".toList, ?_, by simp, trivial,
          ⟨w, c, "nfinity".toList, rfl, hws, hcns, by rw [hc8]; decide⟩, ?_⟩
        · rw [hwl, ← ht]
          conv_lhs => rw [hrsplit]
          simp
        · intro Y Z g hYZ hg
          rcases g with _ | g2
          · omega
          rw [show (w ++ c :: "nfinity".toList) ++ Y =
            w ++ c :: ("nfinity".toList ++ Y) by simp]
          rw [parseCore_val g2, skipWs_replay hws hcns]
          subst hc8
          have goal2 : (if beginsWith "nfinity".toList ("nfinity".toList ++ Y) = true then
              some (PRes.v (Json.num "Infinity"), ("nfinity".toList ++ Y).drop 7)
            else none) = some (res, Y) := by
            rw [if_pos (beginsWith_append _ _)]
            have e : some (PRes.v (Json.num "Infinity"), Y) = some (res, Y) := by rw [hres]
            exact e
          exact goal2
      rw [if_neg hc8] at h
      by_cases hc9 : c = '-'
      · rw [if_pos hc9] at h
        rcases hbw : beginsWith "Infinity".toList r with _ | _
        · rw [hbw, if_neg Bool.false_ne_true] at h
          split at h
          · rename_i j t2 hpn
            obtain ⟨hres, ht⟩ := Prod.mk.injEq .. ▸ Option.some.inj h
            obtain ⟨cn, hn1, hn2, hn3⟩ := parseNum_master hpn
            rcases cn with _ | ⟨c', cn'⟩
            · exact absurd rfl hn2
            obtain ⟨hcc', hrr⟩ := List.cons.injEq .. ▸ hn1
            refine ⟨w ++ c :: cn', ?_, by simp, trivial,
              ⟨w, c, cn', rfl, hws, hcns, by rw [hc9]; decide⟩, ?_⟩
            · rw [hwl, ← ht]
              conv_lhs => rw [hrr]
              simp
            · intro Y Z g hYZ hg
              rcases g with _ | g2
              · omega
              rw [show (w ++ c :: cn') ++ Y = w ++ c :: (cn' ++ Y) by simp]
              rw [parseCore_val g2, skipWs_replay hws hcns]
              subst hc9
              have hbwr : ¬ beginsWith "Infinity".toList (cn' ++ Y) = true := by
                intro hcon
                have hext := beginsWith_extend hcon Z
                rw [show (cn' ++ Y) ++ Z = r from by
                  rw [List.append_assoc, ← hYZ, ← ht]; exact hrr.symm] at hext
                rw [hbw] at hext
                exact Bool.false_ne_true hext
              have goal2 : (if beginsWith "Infinity".toList (cn' ++ Y) = true then
                  some (PRes.v (Json.num "-Infinity"), (cn' ++ Y).drop 8)
                else
                  match parseNum ('-' :: (cn' ++ Y)) with
                  | some (j, t') => some (PRes.v j, t')
                  | none => none) = some (res, Y) := by
                rw [if_neg hbwr]
                rw [show ('-' : Char) :: (cn' ++ Y) = (c' :: cn') ++ Y from by
                  rw [hcc']; simp]
                rw [hn3 Y Z (by rw [ht]; exact hYZ)]
                have e : some (PRes.v j, Y) = some (res, Y) := by rw [hres]
                exact e
              exact goal2
          · exact absurd h (by simp)
        · rw [hbw, if_pos rfl] at h
          obtain ⟨hres, ht⟩ := Prod.mk.injEq .. ▸ Option.some.inj h
          have hrsplit : r = "Infinity".toList ++ r.drop 8 := by
            have hh := beginsWith_split hbw
            rw [show ("Infinity".toList).length = 8 from rfl] at hh
            exact hh
          refine ⟨w ++ c :: "Infinity".toList, ?_, by simp, trivial,
            ⟨w, c, "Infinity".toList, rfl, hws, hcns, by rw [hc9]; decide⟩, ?_⟩
          · rw [hwl, ← ht]
            conv_lhs => rw [hrsplit]
            simp
          · intro Y Z g hYZ hg
            rcases g with _ | g2
            · omega
            rw [show (w ++ c :: "Infinity".toList) ++ Y =
              w ++ c :: ("Infinity".toList ++ Y) by simp]
            rw [parseCore_val g2, skipWs_replay hws hcns]
            subst hc9
            have goal2 : (if beginsWith "Infinity".toList ("Infinity".toList ++ Y) = true then
                some (PRes.v (Json.num "-Infinity"), ("Infinity".toList ++ Y).drop 8)
              else
                match parseNum ('-' :: ("Infinity".toList ++ Y)) with
                | some (j, t') => some (PRes.v j, t')
                | none => none) = some (res, Y) := by
              rw [if_pos (beginsWith_append _ _)]
              have e : some (PRes.v (Json.num "-Infinity"), Y) = some (res, Y) := by
                rw [hres]
              exact e
            exact goal2
      rw [if_neg hc9] at h
      split at h
      · rename_i j t2 hpn
        obtain ⟨hres, ht⟩ := Prod.mk.injEq .. ▸ Option.some.inj h
        obtain ⟨cn, hn1, hn2, hn3⟩ := parseNum_master hpn
        rcases cn with _ | ⟨c', cn'⟩
        · exact absurd rfl hn2
        obtain ⟨hcc', hrr⟩ := List.cons.injEq .. ▸ hn1
        have hcne : ¬ c = ']' := by
          rcases parseNum_head hc9 hpn with h0 | hd
          · rw [h0]; decide
          · exact isDigit_ne hd (by decide)
        refine ⟨w ++ c :: cn', ?_, by simp, trivial,
          ⟨w, c, cn', rfl, hws, hcns, hcne⟩, ?_⟩
        · rw [hwl, ← ht]
          conv_lhs => rw [hrr]
          simp
        · intro Y Z g hYZ hg
          rcases g with _ | g2
          · omega
          rw [show (w ++ c :: cn') ++ Y = w ++ c :: (cn' ++ Y) by simp]
          rw [parseCore_val g2]
          split
          · rename_i heq
            rw [skipWs_replay hws hcns] at heq
            exact absurd heq (by simp)
          · rename_i c2 r2 heq
            rw [skipWs_replay hws hcns] at heq
            obtain ⟨he1, he2⟩ := List.cons.injEq .. ▸ heq
            rw [← he1, ← he2]
            rw [if_neg hc1, if_neg hc2, if_neg hc3, if_neg hc4, if_neg hc5, if_neg hc6,
              if_neg hc7, if_neg hc8, if_neg hc9]
            rw [show c :: (cn' ++ Y) = (c' :: cn') ++ Y from by rw [hcc']; simp]
            rw [hn3 Y Z (by rw [ht]; exact hYZ)]
            have e : some (PRes.v j, Y) = some (res, Y) := by rw [hres]
            exact e
      · exact absurd h (by simp)
    | mems =>
      rw [parseCore_mems] at h
      obtain ⟨w, hwl, hws⟩ := skipWs_split l
      split at h
      · exact absurd h (by simp)
      rename_i c r hsw
      rw [hsw] at hwl
      have hcns : jsonWs c = false := skipWs_head_not_ws hsw
      by_cases hc1 : c = '}'
      · rw [if_pos hc1] at h
        obtain ⟨hres, ht⟩ := Prod.mk.injEq .. ▸ Option.some.inj h
        refine ⟨w ++ [c], ?_, by simp, ⟨w, by rw [hc1]⟩, trivial, ?_⟩
        · rw [hwl, ← ht]; simp
        · intro Y Z g hYZ hg
          rcases g with _ | g2
          · omega
          rw [show (w ++ [c]) ++ Y = w ++ c :: Y by simp]
          rw [parseCore_mems g2, skipWs_replay hws hcns]
          subst hc1
          have e : some (PRes.ms ([] : List (String × Json)), Y) = some (res, Y) := by
            rw [hres]
          exact e
      rw [if_neg hc1] at h
      by_cases hc2 : c = '"'
      · rw [if_pos hc2] at h
        split at h
        · rename_i k t0 hsr
          split at h
          · rename_i t2 hsw2
            split at h
            · rename_i v t3 hv
              split at h
              · rename_i ms1 t4 hmm2
                obtain ⟨hres, ht⟩ := Prod.mk.injEq .. ▸ Option.some.inj h
                obtain ⟨ck, hck1, hck2, hckR⟩ := parseStrRest_master hsr
                obtain ⟨w2, hw2l, hws2⟩ := skipWs_split t0
                rw [hsw2] at hw2l
                obtain ⟨cv, hv1, hv2, hvT, hvH, hvR⟩ := ih PTask.val t2 (PRes.v v) t3 hv
                obtain ⟨cm, hm1, hm2, hmT, hmH, hmR⟩ :=
                  ih PTask.memsMore t3 (PRes.ms ms1) t4 hmm2
                obtain ⟨cm0, hcm0⟩ := hmT
                have hcmlen : cm.length = cm0.length + 1 := by rw [hcm0]; simp
                have hcvlen : 0 < cv.length := List.length_pos.mpr hv2
                refine ⟨w ++ c :: (ck ++ (w2 ++ ':' :: (cv ++ cm))), ?_, by simp, ?_,
                  trivial, ?_⟩
                · rw [hwl, hck1, hw2l, hv1, hm1, ← ht]; simp
                · exact ⟨w ++ c :: (ck ++ (w2 ++ ':' :: (cv ++ cm0))), by rw [hcm0]; simp⟩
                · intro Y Z g hYZ hg
                  rcases g with _ | g2
                  · omega
                  rw [show (w ++ c :: (ck ++ (w2 ++ ':' :: (cv ++ cm)))) ++ Y =
                    w ++ c :: (ck ++ (w2 ++ ':' :: (cv ++ (cm ++ Y)))) by simp]
                  rw [parseCore_mems g2, skipWs_replay hws hcns]
                  subst hc2
                  have goal2 : (match parseStrRest (ck ++ (w2 ++ ':' :: (cv ++ (cm ++ Y)))) with
                    | some (k2, t') =>
                      (match skipWs t' with
                       | ':' :: t2' =>
                         (match parseCore g2 PTask.val t2' with
                          | some (PRes.v v2, t3') =>
                            (match parseCore g2 PTask.memsMore t3' with
                             | some (PRes.ms ms2, t4') =>
                               some (PRes.ms ((String.mk k2, v2) :: ms2), t4')
                             | _ => none)
                          | _ => none)
                       | _ => none)
                    | none => none) = some (res, Y) := by
                    rw [hckR (w2 ++ ':' :: (cv ++ (cm ++ Y)))]
                    have goal3 : (match skipWs (w2 ++ ':' :: (cv ++ (cm ++ Y))) with
                      | ':' :: t2' =>
                        (match parseCore g2 PTask.val t2' with
                         | some (PRes.v v2, t3') =>
                           (match parseCore g2 PTask.memsMore t3' with
                            | some (PRes.ms ms2, t4') =>
                              some (PRes.ms ((String.mk k, v2) :: ms2), t4')
                            | _ => none)
                         | _ => none)
                      | _ => none) = some (res, Y) := by
                      rw [skipWs_replay hws2 (by decide)]
                      have goal4 : (match parseCore g2 PTask.val (cv ++ (cm ++ Y)) with
                        | some (PRes.v v2, t3') =>
                          (match parseCore g2 PTask.memsMore t3' with
                           | some (PRes.ms ms2, t4') =>
                             some (PRes.ms ((String.mk k, v2) :: ms2), t4')
                           | _ => none)
                        | _ => none) = some (res, Y) := by
                        rw [hvR (cm ++ Y) Z g2 (by rw [hm1, ht, hYZ]; simp)
                          (by simp only [List.length_append, List.length_cons] at hg; omega)]
                        have goal5 : (match parseCore g2 PTask.memsMore (cm ++ Y) with
                          | some (PRes.ms ms2, t4') =>
                            some (PRes.ms ((String.mk k, v) :: ms2), t4')
                          | _ => none) = some (res, Y) := by
                          rw [hmR Y Z g2 (by rw [ht]; exact hYZ)
                            (by simp only [List.length_append, List.length_cons] at hg; omega)]
                          have e : some (PRes.ms ((String.mk k, v) :: ms1), Y) =
                            some (res, Y) := by rw [hres]
                          exact e
                        exact goal5
                      exact goal4
                    exact goal3
                  exact goal2
              · exact absurd h (by simp)
            · exact absurd h (by simp)
          · exact absurd h (by simp)
        · exact absurd h (by simp)
      rw [if_neg hc2] at h
      exact absurd h (by simp)
    | memsMore =>
      rw [parseCore_memsMore] at h
      obtain ⟨w, hwl, hws⟩ := skipWs_split l
      split at h
      · rename_i r hsw
        rw [hsw] at hwl
        obtain ⟨hres, ht⟩ := Prod.mk.injEq .. ▸ Option.some.inj h
        refine ⟨w ++ ['}'], ?_, by simp, ⟨w, rfl⟩, trivial, ?_⟩
        · rw [hwl, ← ht]; simp
        · intro Y Z g hYZ hg
          rcases g with _ | g2
          · omega
          rw [show (w ++ ['}']) ++ Y = w ++ '}' :: Y by simp]
          rw [parseCore_memsMore g2, skipWs_replay hws (by decide)]
          have e : some (PRes.ms ([] : List (String × Json)), Y) = some (res, Y) := by
            rw [hres]
          exact e
      · rename_i r hsw
        rw [hsw] at hwl
        obtain ⟨w2, hw2, hws2⟩ := skipWs_split r
        split at h
        · rename_i r2 hsw2
          rw [hsw2] at hw2
          split at h
          · rename_i k t0 hsr
            obtain ⟨w3, hw3, hws3⟩ := skipWs_split t0
            split at h
            · rename_i t2 hsw3
              rw [hsw3] at hw3
              split at h
              · rename_i v t3 hv
                split at h
                · rename_i ms1 t4 hmm2
                  obtain ⟨hres, ht⟩ := Prod.mk.injEq .. ▸ Option.some.inj h
                  obtain ⟨ck, hck1, hck2, hckR⟩ := parseStrRest_master hsr
                  obtain ⟨cv, hv1, hv2, hvT, hvH, hvR⟩ := ih PTask.val t2 (PRes.v v) t3 hv
                  obtain ⟨cm, hm1, hm2, hmT, hmH, hmR⟩ :=
                    ih PTask.memsMore t3 (PRes.ms ms1) t4 hmm2
                  obtain ⟨cm0, hcm0⟩ := hmT
                  have hcmlen : cm.length = cm0.length + 1 := by rw [hcm0]; simp
                  have hcvlen : 0 < cv.length := List.length_pos.mpr hv2
                  refine ⟨w ++ ',' :: (w2 ++ '"' :: (ck ++ (w3 ++ ':' :: (cv ++ cm)))), ?_,
                    by simp, ?_, trivial, ?_⟩
                  · rw [hwl, hw2, hck1, hw3, hv1, hm1, ← ht]; simp
                  · exact ⟨w ++ ',' :: (w2 ++ '"' :: (ck ++ (w3 ++ ':' :: (cv ++ cm0)))),
                      by rw [hcm0]; simp⟩
                  · intro Y Z g hYZ hg
                    rcases g with _ | g2
                    · omega
                    rw [show (w ++ ',' :: (w2 ++ '"' :: (ck ++ (w3 ++ ':' :: (cv ++ cm))))) ++ Y =
                      w ++ ',' :: (w2 ++ '"' :: (ck ++ (w3 ++ ':' :: (cv ++ (cm ++ Y))))) by simp]
                    rw [parseCore_memsMore g2, skipWs_replay hws (by decide)]
                    have goal2 : (match skipWs (w2 ++ '"' :: (ck ++ (w3 ++ ':' :: (cv ++ (cm ++ Y))))) with
                      | '"' :: r2' =>
                        (match parseStrRest r2' with
                         | some (k2, t') =>
                           (match skipWs t' with
                            | ':' :: t2' =>
                              (match parseCore g2 PTask.val t2' with
                               | some (PRes.v v2, t3') =>
                                 (match parseCore g2 PTask.memsMore t3' with
                                  | some (PRes.ms ms2, t4') =>
                                    some (PRes.ms ((String.mk k2, v2) :: ms2), t4')
                                  | _ => none)
                               | _ => none)
                            | _ => none)
                         | none => none)
                      | _ => none) = some (res, Y) := by
                      rw [skipWs_replay hws2 (by decide)]
                      have goal3 : (match parseStrRest (ck ++ (w3 ++ ':' :: (cv ++ (cm ++ Y)))) with
                        | some (k2, t') =>
                          (match skipWs t' with
                           | ':' :: t2' =>
                             (match parseCore g2 PTask.val t2' with
                              | some (PRes.v v2, t3') =>
                                (match parseCore g2 PTask.memsMore t3' with
                                 | some (PRes.ms ms2, t4') =>
                                   some (PRes.ms ((String.mk k2, v2) :: ms2), t4')
                                 | _ => none)
                              | _ => none)
                           | _ => none)
                        | none => none) = some (res, Y) := by
                        rw [hckR (w3 ++ ':' :: (cv ++ (cm ++ Y)))]
                        have goal4 : (match skipWs (w3 ++ ':' :: (cv ++ (cm ++ Y))) with
                          | ':' :: t2' =>
                            (match parseCore g2 PTask.val t2' with
                             | some (PRes.v v2, t3') =>
                               (match parseCore g2 PTask.memsMore t3' with
                                | some (PRes.ms ms2, t4') =>
                                  some (PRes.ms ((String.mk k, v2) :: ms2), t4')
                                | _ => none)
                             | _ => none)
                          | _ => none) = some (res, Y) := by
                          rw [skipWs_replay hws3 (by decide)]
                          have goal5 : (match parseCore g2 PTask.val (cv ++ (cm ++ Y)) with
                            | some (PRes.v v2, t3') =>
                              (match parseCore g2 PTask.memsMore t3' with
                               | some (PRes.ms ms2, t4') =>
                                 some (PRes.ms ((String.mk k, v2) :: ms2), t4')
                               | _ => none)
                            | _ => none) = some (res, Y) := by
                            rw [hvR (cm ++ Y) Z g2 (by rw [hm1, ht, hYZ]; simp)
                              (by simp only [List.length_append, List.length_cons] at hg; omega)]
                            have goal6 : (match parseCore g2 PTask.memsMore (cm ++ Y) with
                              | some (PRes.ms ms2, t4') =>
                                some (PRes.ms ((String.mk k, v) :: ms2), t4')
                              | _ => none) = some (res, Y) := by
                              rw [hmR Y Z g2 (by rw [ht]; exact hYZ)
                                (by simp only [List.length_append, List.length_cons] at hg; omega)]
                              have e : some (PRes.ms ((String.mk k, v) :: ms1), Y) =
                                some (res, Y) := by rw [hres]
                              exact e
                            exact goal6
                          exact goal5
                        exact goal4
                      exact goal3
                    exact goal2
                · exact absurd h (by simp)
              · exact absurd h (by simp)
            · exact absurd h (by simp)
          · exact absurd h (by simp)
        · exact absurd h (by simp)
      · exact absurd h (by simp)
    | elems =>
      rw [parseCore_elems] at h
      obtain ⟨w, hwl, hws⟩ := skipWs_split l
      split at h
      · rename_i r hsw
        rw [hsw] at hwl
        obtain ⟨hres, ht⟩ := Prod.mk.injEq .. ▸ Option.some.inj h
        refine ⟨w ++ [']'], ?_, by simp, ⟨w, rfl⟩, trivial, ?_⟩
        · rw [hwl, ← ht]; simp
        · intro Y Z g hYZ hg
          rcases g with _ | g2
          · omega
          rw [show (w ++ [']']) ++ Y = w ++ ']' :: Y by simp]
          rw [parseCore_elems g2, skipWs_replay hws (by decide)]
          have e : some (PRes.xs ([] : List Json), Y) = some (res, Y) := by rw [hres]
          exact e
      · split at h
        · rename_i v t2 hv
          split at h
          · rename_i xs1 t3 hem
            obtain ⟨hres, ht⟩ := Prod.mk.injEq .. ▸ Option.some.inj h
            obtain ⟨cv, hv1, hv2, hvT, hvH, hvR⟩ := ih PTask.val (skipWs l) (PRes.v v) t2 hv
            obtain ⟨cm, hm1, hm2, hmT, hmH, hmR⟩ := ih PTask.elemsMore t2 (PRes.xs xs1) t3 hem
            obtain ⟨cm0, hcm0⟩ := hmT
            have hcmlen : cm.length = cm0.length + 1 := by rw [hcm0]; simp
            have hcvlen : 0 < cv.length := List.length_pos.mpr hv2
            obtain ⟨w1, c0, m, hcv, hw1, hc0, hc0ne⟩ := hvH
            refine ⟨w ++ (cv ++ cm), ?_, ?_, ?_, trivial, ?_⟩
            · rw [hwl, hv1, hm1, ← ht]; simp
            · intro hcon
              rcases List.append_eq_nil.mp hcon with ⟨h1, h2⟩
              rcases List.append_eq_nil.mp h2 with ⟨h3, h4⟩
              exact hv2 h3
            · exact ⟨w ++ (cv ++ cm0), by rw [hcm0]; simp⟩
            · intro Y Z g hYZ hg
              rcases g with _ | g2
              · omega
              have hwsall : ∀ x ∈ w ++ w1, jsonWs x = true := by
                intro x hx
                rcases List.mem_append.mp hx with h1 | h2
                · exact hws x h1
                · exact hw1 x h2
              rw [show (w ++ (cv ++ cm)) ++ Y = (w ++ w1) ++ c0 :: (m ++ (cm ++ Y)) from by
                rw [hcv]; simp]
              rw [parseCore_elems g2]
              split
              · rename_i r' heq
                rw [skipWs_replay hwsall hc0] at heq
                exact absurd (List.cons.injEq .. ▸ heq).1 hc0ne
              · rw [skipWs_replay hwsall hc0]
                rcases g2 with _ | g3
                · simp only [List.length_append, List.length_cons] at hg
                  omega
                have hval : parseCore (Nat.succ g3) PTask.val (c0 :: (m ++ (cm ++ Y))) =
                    some (PRes.v v, cm ++ Y) := by
                  rw [← parseCore_val_ws hw1 g3 (c0 :: (m ++ (cm ++ Y)))]
                  rw [show w1 ++ c0 :: (m ++ (cm ++ Y)) = cv ++ (cm ++ Y) from by
                    rw [hcv]; simp]
                  exact hvR (cm ++ Y) Z (Nat.succ g3) (by rw [hm1, ht, hYZ]; simp)
                    (by simp only [List.length_append, List.length_cons] at hg; omega)
                rw [hval]
                have goal3 : (match parseCore (Nat.succ g3) PTask.elemsMore (cm ++ Y) with
                  | some (PRes.xs xs2, t3') => some (PRes.xs (v :: xs2), t3')
                  | _ => none) = some (res, Y) := by
                  rw [hmR Y Z (Nat.succ g3) (by rw [ht]; exact hYZ)
                    (by simp only [List.length_append, List.length_cons] at hg; omega)]
                  have e : some (PRes.xs (v :: xs1), Y) = some (res, Y) := by rw [hres]
                  exact e
                exact goal3
          · exact absurd h (by simp)
        · exact absurd h (by simp)
    | elemsMore =>
      rw [parseCore_elemsMore] at h
      obtain ⟨w, hwl, hws⟩ := skipWs_split l
      split at h
      · rename_i r hsw
        rw [hsw] at hwl
        obtain ⟨hres, ht⟩ := Prod.mk.injEq .. ▸ Option.some.inj h
        refine ⟨w ++ [']'], ?_, by simp, ⟨w, rfl⟩, trivial, ?_⟩
        · rw [hwl, ← ht]; simp
        · intro Y Z g hYZ hg
          rcases g with _ | g2
          · omega
          rw [show (w ++ [']']) ++ Y = w ++ ']' :: Y by simp]
          rw [parseCore_elemsMore g2, skipWs_replay hws (by decide)]
          have e : some (PRes.xs ([] : List Json), Y) = some (res, Y) := by rw [hres]
          exact e
      · rename_i r hsw
        rw [hsw] at hwl
        split at h
        · rename_i v t2 hv
          split at h
          · rename_i xs1 t3 hem
            obtain ⟨hres, ht⟩ := Prod.mk.injEq .. ▸ Option.some.inj h
            obtain ⟨cv, hv1, hv2, hvT, hvH, hvR⟩ := ih PTask.val r (PRes.v v) t2 hv
            obtain ⟨cm, hm1, hm2, hmT, hmH, hmR⟩ := ih PTask.elemsMore t2 (PRes.xs xs1) t3 hem
            obtain ⟨cm0, hcm0⟩ := hmT
            have hcmlen : cm.length = cm0.length + 1 := by rw [hcm0]; simp
            have hcvlen : 0 < cv.length := List.length_pos.mpr hv2
            refine ⟨w ++ ',' :: (cv ++ cm), ?_, by simp, ?_, trivial, ?_⟩
            · rw [hwl, hv1, hm1, ← ht]; simp
            · exact ⟨w ++ ',' :: (cv ++ cm0), by rw [hcm0]; simp⟩
            · intro Y Z g hYZ hg
              rcases g with _ | g2
              · omega
              rw [show (w ++ ',' :: (cv ++ cm)) ++ Y = w ++ ',' :: (cv ++ (cm ++ Y)) by simp]
              rw [parseCore_elemsMore g2, skipWs_replay hws (by decide)]
              have goal2 : (match parseCore g2 PTask.val (cv ++ (cm ++ Y)) with
                | some (PRes.v v2, t2') =>
                  (match parseCore g2 PTask.elemsMore t2' with
                   | some (PRes.xs xs2, t3') => some (PRes.xs (v2 :: xs2), t3')
                   | _ => none)
                | _ => none) = some (res, Y) := by
                rw [hvR (cm ++ Y) Z g2 (by rw [hm1, ht, hYZ]; simp)
                  (by simp only [List.length_append, List.length_cons] at hg; omega)]
                have goal3 : (match parseCore g2 PTask.elemsMore (cm ++ Y) with
                  | some (PRes.xs xs2, t3') => some (PRes.xs (v :: xs2), t3')
                  | _ => none) = some (res, Y) := by
                  rw [hmR Y Z g2 (by rw [ht]; exact hYZ)
                    (by simp only [List.length_append, List.length_cons] at hg; omega)]
                  have e : some (PRes.xs (v :: xs1), Y) = some (res, Y) := by rw [hres]
                  exact e
                exact goal3
              exact goal2
          · exact absurd h (by simp)
        · exact absurd h (by simp)
      · exact absurd h (by simp)

theorem jsonParseL_eq (l : List Char) :
    jsonParseL l =
      match parseCore (l.length + 1) PTask.val l with
      | some (PRes.v v, r) => if skipWs r = [] then some v else none
      | _ => none := rfl

/-- When a list parses as a JSON object, the region the parser consumed —
from the opening `'{'` through its matching `'}'` — is itself a
brace-delimited substring that parses to the very same object. -/
theorem jsonParseL_obj_sub {l : List Char} {ms : List (String × Json)}
    (h : jsonParseL l = some (Json.obj ms)) :
    ∃ mid pre post, l = pre ++ ('{' :: (mid ++ ['}'])) ++ post ∧
      jsonParseL ('{' :: (mid ++ ['}'])) = some (Json.obj ms) := by
  rw [jsonParseL_eq] at h
  split at h
  · rename_i v r hpc
    split at h
    · rename_i hswr
      have hv : v = Json.obj ms := Option.some.inj h
      rw [hv] at hpc
      have hpc2 : parseCore (Nat.succ l.length) PTask.val l =
          some (PRes.v (Json.obj ms), r) := hpc
      rw [parseCore_val] at hpc2
      obtain ⟨w, hwl, hws⟩ := skipWs_split l
      split at hpc2
      · exact absurd hpc2 (by simp)
      rename_i c r0 hsw
      rw [hsw] at hwl
      by_cases hc1 : c = '{'
      · rw [if_pos hc1] at hpc2
        split at hpc2
        · rename_i ms2 t2 hm
          obtain ⟨hres, ht⟩ := Prod.mk.injEq .. ▸ Option.some.inj hpc2
          have hms : ms2 = ms := by
            injection hres with h1
            injection h1
          subst hms
          obtain ⟨cc, hcc1, hcc2, hccT, hccH, hccR⟩ :=
            parseCore_master l.length PTask.mems r0 (PRes.ms ms2) t2 hm
          obtain ⟨cc0, hcc0⟩ := hccT
          refine ⟨cc0, w, t2, ?_, ?_⟩
          · rw [hwl, hcc1, hc1, ← hcc0]
            simp
          · rw [← hcc0]
            rw [jsonParseL_eq]
            have hrun : parseCore (('{' :: cc).length + 1) PTask.val ('{' :: cc) =
                some (PRes.v (Json.obj ms2), []) := by
              have hmrun : parseCore (cc.length + 1) PTask.mems (cc ++ []) =
                  some (PRes.ms ms2, []) :=
                hccR [] t2 (cc.length + 1) (by simp) (le_refl _)
              rw [List.append_nil] at hmrun
              have he : parseCore (Nat.succ (cc.length + 1)) PTask.val ('{' :: cc) =
                  some (PRes.v (Json.obj ms2), []) := by
                rw [parseCore_val, skipWs_not_ws (by decide)]
                have goal2 : (match parseCore (cc.length + 1) PTask.mems cc with
                  | some (PRes.ms ms3, t') => some (PRes.v (Json.obj ms3), t')
                  | _ => none) = some (PRes.v (Json.obj ms2), []) := by
                  rw [hmrun]
                exact goal2
              exact he
            rw [hrun]
            have e : (if skipWs ([] : List Char) = [] then some (Json.obj ms2)
                else none) = some (Json.obj ms2) := if_pos rfl
            exact e
        · exact absurd hpc2 (by simp)
      · exfalso
        rw [if_neg hc1] at hpc2
        by_cases hc2 : c = '['
        · rw [if_pos hc2] at hpc2
          split at hpc2
          · rename_i xs2 t2 hm
            exact absurd (Prod.mk.injEq .. ▸ Option.some.inj hpc2).1 (by simp)
          · exact absurd hpc2 (by simp)
        rw [if_neg hc2] at hpc2
        by_cases hc3 : c = '"'
        · rw [if_pos hc3] at hpc2
          split at hpc2
          · rename_i s t2 hsr
            exact absurd (Prod.mk.injEq .. ▸ Option.some.inj hpc2).1 (by simp)
          · exact absurd hpc2 (by simp)
        rw [if_neg hc3] at hpc2
        by_cases hc4 : c = 't'
        · rw [if_pos hc4] at hpc2
          rcases hbw : beginsWith "rue".toList r0 with _ | _
          · rw [hbw, if_neg Bool.false_ne_true] at hpc2
            exact absurd hpc2 (by simp)
          · rw [hbw, if_pos rfl] at hpc2
            exact absurd (Prod.mk.injEq .. ▸ Option.some.inj hpc2).1 (by simp)
        rw [if_neg hc4] at hpc2
        by_cases hc5 : c = 'f'
        · rw [if_pos hc5] at hpc2
          rcases hbw : beginsWith "alse".toList r0 with _ | _
          · rw [hbw, if_neg Bool.false_ne_true] at hpc2
            exact absurd hpc2 (by simp)
          · rw [hbw, if_pos rfl] at hpc2
            exact absurd (Prod.mk.injEq .. ▸ Option.some.inj hpc2).1 (by simp)
        rw [if_neg hc5] at hpc2
        by_cases hc6 : c = 'n'
        · rw [if_pos hc6] at hpc2
          rcases hbw : beginsWith "ull".toList r0 with _ | _
          · rw [hbw, if_neg Bool.false_ne_true] at hpc2
            exact absurd hpc2 (by simp)
          · rw [hbw, if_pos rfl] at hpc2
            exact absurd (Prod.mk.injEq .. ▸ Option.some.inj hpc2).1 (by simp)
        rw [if_neg hc6] at hpc2
        by_cases hc7 : c = 'N'
        · rw [if_pos hc7] at hpc2
          rcases hbw : beginsWith "aN".toList r0 with _ | _
          · rw [hbw, if_neg Bool.false_ne_true] at hpc2
            exact absurd hpc2 (by simp)
          · rw [hbw, if_pos rfl] at hpc2
            exact absurd (Prod.mk.injEq .. ▸ Option.some.inj hpc2).1 (by simp)
        rw [if_neg hc7] at hpc2
        by_cases hc8 : c = 'I'
        · rw [if_pos hc8] at hpc2
          rcases hbw : beginsWith "nfinity".toList r0 with _ | _
          · rw [hbw, if_neg Bool.false_ne_true] at hpc2
            exact absurd hpc2 (by simp)
          · rw [hbw, if_pos rfl] at hpc2
            exact absurd (Prod.mk.injEq .. ▸ Option.some.inj hpc2).1 (by simp)
        rw [if_neg hc8] at hpc2
        by_cases hc9 : c = '-'
        · rw [if_pos hc9] at hpc2
          rcases hbw : beginsWith "Infinity".toList r0 with _ | _
          · rw [hbw, if_neg Bool.false_ne_true] at hpc2
            split at hpc2
            · rename_i j t2 hpn
              obtain ⟨lex, hj⟩ := parseNum_isNum hpn
              have h1 := (Prod.mk.injEq .. ▸ Option.some.inj hpc2).1
              rw [hj] at h1
              exact absurd h1 (by simp)
            · exact absurd hpc2 (by simp)
          · rw [hbw, if_pos rfl] at hpc2
            exact absurd (Prod.mk.injEq .. ▸ Option.some.inj hpc2).1 (by simp)
        rw [if_neg hc9] at hpc2
        split at hpc2
        · rename_i j t2 hpn
          obtain ⟨lex, hj⟩ := parseNum_isNum hpn
          have h1 := (Prod.mk.injEq .. ▸ Option.some.inj hpc2).1
          rw [hj] at h1
          exact absurd h1 (by simp)
        · exact absurd hpc2 (by simp)
    · exact absurd h (by simp)
  · exact absurd h (by simp)

theorem fromFirstBrace_split :
    ∀ {l u : List Char}, fromFirstBrace l = some u →
      ∃ pre, l = pre ++ u ∧ ∃ u2, u = '{' :: u2 := by
  intro l
  induction l with
  | nil =>
    intro u h
    exact absurd h (by simp [fromFirstBrace])
  | cons c r ih =>
    intro u h
    by_cases hc : c = '{'
    · simp only [fromFirstBrace] at h
      rw [if_pos hc] at h
      have hu := Option.some.inj h
      exact ⟨[], by rw [← hu]; rfl, r, by rw [← hu, hc]⟩
    · simp only [fromFirstBrace] at h
      rw [if_neg hc] at h
      obtain ⟨pre, hp, u2, hu2⟩ := ih h
      exact ⟨c :: pre, by rw [hp]; rfl, u2, hu2⟩

theorem dropWhile_head_false {p : Char → Bool} :
    ∀ {l : List Char} {d : Char} {l2 : List Char},
      List.dropWhile p l = d :: l2 → p d = false := by
  intro l
  induction l with
  | nil =>
    intro d l2 h
    exact absurd h (by simp)
  | cons c r ih =>
    intro d l2 h
    rcases hc : p c with _ | _
    · rw [List.dropWhile_cons] at h
      rw [hc, if_neg Bool.false_ne_true] at h
      obtain ⟨h1, _⟩ := List.cons.injEq .. ▸ h
      rw [← h1]
      exact hc
    · rw [List.dropWhile_cons] at h
      rw [hc, if_pos rfl] at h
      exact ih h

theorem upThroughLastClose_split {t u : List Char} (h : upThroughLastClose t = some u) :
    ∃ post, t = u ++ post ∧ ∃ u0, u = u0 ++ ['}'] := by
  rcases hrr : t.reverse.dropWhile (fun c => !(c = '}')) with _ | ⟨d, rr2⟩
  · rw [show upThroughLastClose t = none from by
      unfold upThroughLastClose; rw [hrr]; rfl] at h
    exact absurd h (by simp)
  · have h2 : upThroughLastClose t = some ((d :: rr2).reverse) := by
      unfold upThroughLastClose
      rw [hrr]
      rfl
    rw [h2] at h
    have hu := Option.some.inj h
    have hd : (fun c => !(c = '}')) d = false := dropWhile_head_false hrr
    have hd2 : d = '}' := by
      have hd3 := hd
      simp at hd3
      exact hd3
    have hsplit : t.reverse = t.reverse.takeWhile (fun c => !(c = '}')) ++ (d :: rr2) := by
      rw [← hrr]
      exact (List.takeWhile_append_dropWhile ..).symm
    have ht : t = (d :: rr2).reverse ++ (t.reverse.takeWhile (fun c => !(c = '}'))).reverse := by
      have hrev := congrArg List.reverse hsplit
      rw [List.reverse_reverse, List.reverse_append] at hrev
      exact hrev
    refine ⟨(t.reverse.takeWhile (fun c => !(c = '}'))).reverse, ?_, rr2.reverse, ?_⟩
    · rw [← hu]
      exact ht
    · rw [← hu, show (d :: rr2).reverse = rr2.reverse ++ [d] from by simp, hd2]

theorem braceCandidate_split {l cand : List Char} (h : braceCandidate l = some cand) :
    ∃ pre post mid, l = pre ++ cand ++ post ∧ cand = '{' :: (mid ++ ['}']) := by
  unfold braceCandidate at h
  split at h
  · rename_i u hf
    obtain ⟨pre, hl, u2, hu2⟩ := fromFirstBrace_split hf
    obtain ⟨post, hup, u0, hu0⟩ := upThroughLastClose_split h
    rcases u0 with _ | ⟨x, mid⟩
    · rw [hu0] at hup
      rw [hu2] at hup
      have hup2 : ('{' : Char) :: u2 = '}' :: post := hup
      exact absurd (List.cons.injEq .. ▸ hup2).1 (by decide)
    · have hx : x = '{' := by
        rw [hu0] at hup
        rw [hu2] at hup
        have hup2 : ('{' : Char) :: u2 = x :: ((mid ++ ['}']) ++ post) := hup
        exact ((List.cons.injEq .. ▸ hup2).1).symm
      refine ⟨pre, post, mid, ?_, ?_⟩
      · rw [hl, hup]
        simp
      · rw [hu0, hx]
        simp
  · exact absurd h (by simp)

/-- Under the hypothesis that no brace-delimited substring of the cleaned
text parses, `remove_think_tags` reduces to: parse the whole cleaned text,
else the error-question fallback (the brace candidate, being such a
substring, always fails). -/
theorem remove_think_tags_H {text : String}
    (H : ∀ pre mid post,
      removeThinkL text.length text.toList = pre ++ ('{' :: (mid ++ ['}'])) ++ post →
      jsonParseL ('{' :: (mid ++ ['}'])) = none) :
    remove_think_tags text =
      match jsonParseL (removeThinkL text.length text.toList) with
      | some v => v
      | none => parseErrFallback := by
  simp only [remove_think_tags]
  rcases hbc : braceCandidate (removeThinkL text.length text.toList) with _ | cand
  · rfl
  · obtain ⟨pre, post, mid, hdec, hcand⟩ := braceCandidate_split hbc
    have hnone : jsonParseL cand = none := by
      rw [hcand]
      refine H pre mid post ?_
      rw [← hcand]
      exact hdec
    have goal2 : (match jsonParseL cand with
      | some v => v
      | none =>
        match jsonParseL (removeThinkL text.length text.toList) with
        | some v => v
        | none => parseErrFallback) =
      (match jsonParseL (removeThinkL text.length text.toList) with
       | some v => v
       | none => parseErrFallback) := by
      conv_lhs => rw [hnone]
    exact goal2

/-- No brace-delimited substring of the cleaned text parses whenever the
cleaned text contains no `'{'` at all. -/
theorem no_brace_no_structure {cl : List Char} (hni : ('{' : Char) ∉ cl) :
    ∀ pre mid post, cl = pre ++ ('{' :: (mid ++ ['}'])) ++ post →
      jsonParseL ('{' :: (mid ++ ['}'])) = none := by
  intro pre mid post heq
  exfalso
  apply hni
  rw [heq]
  simp

/-- Claim C7 (amended): the concrete scenario parses to exactly
`["Q1","Q2"]` (think wrapper stripped, the brace-delimited candidate
parsed); and for every non-empty response in which **no** brace-delimited
substring parses as well-formed JSON, the caller receives a singleton
question list — but it is the error-message question
`"Error: Could not parse AI response"` when the cleaned text itself does
not parse either, and the default reflective question only when the
cleaned text parses as a non-dict value (or a dict without truthy
`questions`); it is not always "the" single default fallback question. -/
theorem reflective_questions_lenient_parse :
    generate_reflective_questions
        (Outcome.ok (some "<think>reasoning</think>\x7b\"questions\":[\"Q1\",\"Q2\"]\x7d")) =
      Except.ok (Json.arr [Json.str "Q1", Json.str "Q2"]) ∧
    ∀ text : String, ¬ text = "" →
      (∀ pre mid post,
        removeThinkL text.length text.toList = pre ++ ('{' :: (mid ++ ['}'])) ++ post →
        jsonParseL ('{' :: (mid ++ ['}'])) = none) →
      ∃ q, generate_reflective_questions (Outcome.ok (some text)) =
          Except.ok (Json.arr [Json.str q]) ∧
        (q = "Error: Could not parse AI response" ∨ q = defaultQuestion) := by
  constructor
  · rfl
  · intro text htext H
    have hrtt := remove_think_tags_H H
    have hred : generate_reflective_questions (Outcome.ok (some text)) =
        (match remove_think_tags text with
         | Json.obj ms =>
           if pyTruthy ((objGet ms "questions").getD (Json.arr [])) then
             Except.ok ((objGet ms "questions").getD (Json.arr []))
           else Except.ok (Json.arr [Json.str defaultQuestion])
         | _ => Except.ok (Json.arr [Json.str defaultQuestion])) := by
      show (if text = "" then Except.ok (Json.arr [Json.str defaultQuestion]) else _) = _
      rw [if_neg htext]
    rw [hred, hrtt]
    rcases hjp : jsonParseL (removeThinkL text.length text.toList) with _ | v
    · refine ⟨"Error: Could not parse AI response", ?_, Or.inl rfl⟩
      rfl
    · rcases v with _ | b | lex | s | xs | ms
      · exact ⟨defaultQuestion, rfl, Or.inr rfl⟩
      · exact ⟨defaultQuestion, rfl, Or.inr rfl⟩
      · exact ⟨defaultQuestion, rfl, Or.inr rfl⟩
      · exact ⟨defaultQuestion, rfl, Or.inr rfl⟩
      · exact ⟨defaultQuestion, rfl, Or.inr rfl⟩
      · exfalso
        obtain ⟨mid, pre, post, hdec, hps⟩ := jsonParseL_obj_sub hjp
        rw [H pre mid post hdec] at hps
        exact absurd hps (by simp)

/-- Witness for `reflective_questions_lenient_parse`: a concrete non-empty
response without any brace-delimited substring. -/
theorem reflective_questions_lenient_parse_witness :
    ¬ ("no structure at all" : String) = "" ∧
    ∃ q, generate_reflective_questions (Outcome.ok (some "no structure at all")) =
        Except.ok (Json.arr [Json.str q]) ∧
      (q = "Error: Could not parse AI response" ∨ q = defaultQuestion) :=
  ⟨by decide, reflective_questions_lenient_parse.2 "no structure at all" (by decide)
    (no_brace_no_structure (by decide))⟩

/-- Counterexample to claim C7 as stated: a response with no
brace-delimited structure at all yields the singleton error-message
question, which differs from the default fallback question. -/
theorem reflective_questions_no_structure_cex :
    ('{' : Char) ∉ removeThinkL ("no structure at all" : String).length
        ("no structure at all" : String).toList ∧
    generate_reflective_questions (Outcome.ok (some "no structure at all")) =
      Except.ok (Json.arr [Json.str "Error: Could not parse AI response"]) ∧
    ("Error: Could not parse AI response" : String) ≠ defaultQuestion :=
  ⟨by decide, rfl, by decide⟩
